import Mathlib

/-!
Verification of the crlib repository claims: the crencoding varint length
functions, the crmath ScaleUint64 helper, and the fifo package (pooled FIFO
queue and weighted FIFO semaphore).

Machine integers are embedded as `Nat` (with explicit `% 2 ^ 64` where Go
uint64 wraparound matters) or `Int` (for Go int64 quantities that stay far
from the 64-bit boundary in all the behaviors under study).  Code that can
panic or fault is embedded with `Option` (`none` models a panic or an invalid
memory access).
-/

namespace Crlib

/-! ## crencoding: UvarintLen32 / UvarintLen64 (translated from var_int.go) -/

/-- Executable bit length (Go `bits.Len64` / `bits.Len32`): the number of bits
required to represent `x`, i.e. `Nat.size x`, written as a fueled loop so that
the kernel can evaluate it.  Fuel 64 is exact for every `x < 2 ^ 64`. -/
def bitsLenAux : Nat → Nat → Nat
  | 0, _ => 0
  | fuel + 1, x => if x = 0 then 0 else bitsLenAux fuel (x / 2) + 1

/-- Go `bits.Len64(x)` (for `x < 2 ^ 64`; also `bits.Len32` for `x < 2 ^ 32`). -/
def bitsLen (x : Nat) : Nat := bitsLenAux 64 x

/-- Translation of crencoding.UvarintLen32: `b := uint32(bits.Len32(x|1)) + 6;
return int((b * 37) >> 8)`. -/
def UvarintLen32 (x : Nat) : Nat :=
  ((bitsLen (x ||| 1) + 6) * 37) >>> 8

/-- Translation of crencoding.UvarintLen64: `b := uint32(bits.Len64(x|1)) + 6;
return int((b * 37) >> 8)`. -/
def UvarintLen64 (x : Nat) : Nat :=
  ((bitsLen (x ||| 1) + 6) * 37) >>> 8

/-- Byte length of Go `encoding/binary.AppendUvarint`: one byte per 7-bit
group, at least one byte.  Fueled form of the stdlib loop
`for x >= 0x80 { ...; x >>= 7 }`; fuel 10 covers every `x < 2 ^ 70`. -/
def appendUvarintLenAux : Nat → Nat → Nat
  | 0, _ => 1
  | fuel + 1, x => if x < 128 then 1 else 1 + appendUvarintLenAux fuel (x / 128)

/-- Byte length of Go `binary.AppendUvarint(nil, x)` for `x < 2 ^ 64`. -/
def appendUvarintLen (x : Nat) : Nat :=
  appendUvarintLenAux 10 x

/-! ## crmath: ScaleUint64 (translated from scale.go) -/

/-- Go `math.MaxUint64`. -/
def uint64Max : Nat := 18446744073709551615

/-- Go `math.MaxUint32`. -/
def uint32Max : Nat := 4294967295

/-- Translation of crmath.ScaleUint64.  Documented contract: returns
`min(⌈x*a/b⌉, math.MaxUint64)` and panics iff `b = 0` (`none` models the
panic).  The fast path multiplies directly (no overflow possible since both
factors are `< 2^32 - 1`); the slow path uses `bits.Mul64`/`bits.Div64`,
modelled as exact `Nat` arithmetic on `hi * 2^64 + lo = x * a` (valid because
`Div64` is only reached with `hi < b`).  The final `quo + 1` is a Go uint64
addition, hence the `% 2 ^ 64`. -/
def ScaleUint64 (x a b : Nat) : Option Nat :=
  if x < uint32Max ∧ a < uint32Max then
    if b = 0 then none
    else
      let prod := a * x
      if prod % b = 0 then some (prod / b) else some ((prod / b + 1) % 2 ^ 64)
  else
    let hi := x * a / 2 ^ 64
    if hi ≥ b ∧ b ≠ 0 then some uint64Max
    else if b = 0 then none
    else
      let quo := x * a / b
      if x * a % b = 0 then some quo else some ((quo + 1) % 2 ^ 64)

/-- The exact mathematical value the ScaleUint64 doc comment promises:
`min(⌈x*a/b⌉, math.MaxUint64)` (for `b ≠ 0`). -/
def scaleExact (x a b : Nat) : Nat :=
  min ((x * a + b - 1) / b) uint64Max

/-! ## crencoding: UvarintLenSum64 (translated from var_int.go)

The function walks the slice's backing array with raw pointers:
`p := unsafe.SliceData(values)` (which is the null pointer for a nil slice),
`end := p + len*8 - 1` in wrapping `uintptr` arithmetic, a 4-way unrolled loop
while `p < end - 3*8`, then a tail loop while `p < end`, reading `*(*uint64)(p)`
each time.  Addresses are `Nat`s; a read is valid only if it lies on an element
of the backing array, and `none` models an invalid memory access (a fault).
Loops are fueled; `values.length + 1` iterations always suffice because every
iteration either performs a valid read of a fresh element or faults. -/

/-- An 8-byte load at address `addr` from the backing array of a uint64 slice
with data pointer `base` and elements `values`; `none` is an invalid access. -/
def read64 (base : Nat) (values : List Nat) (addr : Nat) : Option Nat :=
  if base ≤ addr ∧ (addr - base) % 8 = 0 ∧ (addr - base) / 8 < values.length then
    some (values.getD ((addr - base) / 8) 0)
  else none

/-- Tail loop of UvarintLenSum64:
`for uintptr(p) < uintptr(end) { res += UvarintLen64(*(*uint64)(p)); p += 8 }`. -/
def sumTailLoop (values : List Nat) (base endAddr : Nat) : Nat → Nat → Nat → Option Nat
  | 0, _, _ => none
  | fuel + 1, p, acc =>
    if p < endAddr then
      match read64 base values p with
      | none => none
      | some v => sumTailLoop values base endAddr fuel (p + 8) (acc + UvarintLen64 v)
    else some acc

/-- Unrolled loop of UvarintLenSum64: while `p < end4` load `(*[4]uint64)(p)`
and add the four lengths, advancing `p` by 32; returns the final `p` and
accumulator. -/
def sumQuadLoop (values : List Nat) (base end4 : Nat) :
    Nat → Nat → Nat → Option (Nat × Nat)
  | 0, _, _ => none
  | fuel + 1, p, acc =>
    if p < end4 then
      match read64 base values p, read64 base values (p + 8),
            read64 base values (p + 16), read64 base values (p + 24) with
      | some v0, some v1, some v2, some v3 =>
        sumQuadLoop values base end4 fuel (p + 32)
          (acc + UvarintLen64 v0 + UvarintLen64 v1 + UvarintLen64 v2 + UvarintLen64 v3)
      | _, _, _, _ => none
    else some (p, acc)

/-- Translation of crencoding.UvarintLenSum64.  `base` is the slice's data
pointer (`unsafe.SliceData`): 0 exactly for the nil slice, nonzero for every
other slice.  `end = p + len*8 - 1` and `end4 = end - 3*8` use wrapping
`uintptr` arithmetic, hence the `% 2 ^ 64`. -/
def UvarintLenSum64 (base : Nat) (values : List Nat) : Option Nat :=
  let len := values.length
  let endAddr := (base + len * 8 + (2 ^ 64 - 1)) % 2 ^ 64
  if 4 ≤ len then
    (sumQuadLoop values base ((endAddr + (2 ^ 64 - 24)) % 2 ^ 64) (len + 1) base 0).bind
      (fun pa => sumTailLoop values base endAddr (len + 1) pa.1 pa.2)
  else
    sumTailLoop values base endAddr (len + 1) base 0

/-! ## fifo: pooled chunked Queue

The fifo package's queue.go is not among the available sources (only its test
queue_test.go is), so the queue is modelled from the spec: a FIFO sequence of
fixed-capacity chunks with head/tail cursors; PushBack appends to the tail
chunk, pulling a fresh chunk from the pool when the tail chunk is full;
PopFront removes the oldest element and returns a fully drained chunk to the
pool; PeekFront returns the oldest element or an empty indicator; Len is a
maintained counter.  The shared pool only affects allocation reuse, never the
functional behavior, so it is not part of the state.  `cap` is the fixed
chunk capacity. -/

/-- Modelled from the spec: one fixed-capacity chunk; missing queue.go.
`dead` is the head-cursor offset (slots already popped and unusable), `elems`
the live elements in order. -/
structure Chunk (α : Type) where
  dead : Nat
  elems : List α
deriving DecidableEq

/-- Modelled from the spec: the chunked FIFO queue with its maintained length
counter; missing queue.go. -/
structure CQueue (α : Type) where
  chunks : List (Chunk α)
  len : Nat
deriving DecidableEq

/-- A freshly made queue (fifo.MakeQueue). -/
def emptyCQueue {α : Type} : CQueue α := ⟨[], 0⟩

/-- Modelled from the spec: PushBack appends to the tail chunk, pulling a new
chunk from the pool when the tail chunk is full; missing queue.go. -/
def pushChunks {α : Type} (cap : Nat) (v : α) : List (Chunk α) → List (Chunk α)
  | [] => [⟨0, [v]⟩]
  | [c] =>
    if c.dead + c.elems.length < cap then [⟨c.dead, c.elems ++ [v]⟩]
    else [c, ⟨0, [v]⟩]
  | c :: rest => c :: pushChunks cap v rest

/-- fifo.Queue.PushBack. -/
def pushBack {α : Type} (cap : Nat) (v : α) (q : CQueue α) : CQueue α :=
  ⟨pushChunks cap v q.chunks, q.len + 1⟩

/-- Modelled from the spec: PopFront removes the oldest element, advancing the
head cursor, dropping a fully drained head chunk back to the pool; on an empty
queue it is a no-op; missing queue.go. -/
def popFront {α : Type} (q : CQueue α) : CQueue α :=
  match q.chunks with
  | [] => q
  | c :: rest =>
    match c.elems with
    | [] => q
    | [_] => ⟨rest, q.len - 1⟩
    | _ :: es => ⟨⟨c.dead + 1, es⟩ :: rest, q.len - 1⟩

/-- fifo.Queue.PeekFront: the oldest element, or `none` (Go nil) if empty. -/
def peekFront {α : Type} (q : CQueue α) : Option α :=
  match q.chunks with
  | [] => none
  | c :: _ => c.elems.head?

/-- The abstraction function: the queue's live elements, front to back. -/
def absCQ {α : Type} (q : CQueue α) : List α :=
  (q.chunks.map Chunk.elems).flatten

/-- Structural well-formedness of a chunked queue: every chunk holds at least
one live element within the chunk capacity, and the length counter is right. -/
def WFQ {α : Type} (cap : Nat) (q : CQueue α) : Prop :=
  (∀ c ∈ q.chunks, c.elems ≠ [] ∧ c.dead + c.elems.length ≤ cap) ∧
    q.len = (absCQ q).length

/-- A queue operation: PushBack of a value, or PopFront. -/
inductive QOp (α : Type) where
  | push (v : α)
  | pop
deriving DecidableEq

/-- The naive list queue the spec's refinement property compares to: push
appends at the back, pop drops the front (a no-op on the empty list). -/
def naiveStep {α : Type} (l : List α) : QOp α → List α
  | QOp.push v => l ++ [v]
  | QOp.pop => l.tail

/-- Run a sequence of operations on the naive list queue. -/
def naiveRun {α : Type} (l : List α) : List (QOp α) → List α
  | [] => l
  | op :: ops => naiveRun (naiveStep l op) ops

/-- One operation on the chunked queue. -/
def cqStep {α : Type} (cap : Nat) (q : CQueue α) : QOp α → CQueue α
  | QOp.push v => pushBack cap v q
  | QOp.pop => popFront q

/-- Run a sequence of operations on the chunked queue. -/
def cqRun {α : Type} (cap : Nat) (q : CQueue α) : List (QOp α) → CQueue α
  | [] => q
  | op :: ops => cqRun cap (cqStep cap q op) ops

/-- Number of PushBack operations in a sequence. -/
def numPushes {α : Type} : List (QOp α) → Nat
  | [] => 0
  | QOp.push _ :: ops => numPushes ops + 1
  | QOp.pop :: ops => numPushes ops

/-- Number of PopFront operations in a sequence. -/
def numPops {α : Type} : List (QOp α) → Nat
  | [] => 0
  | QOp.push _ :: ops => numPops ops
  | QOp.pop :: ops => numPops ops + 1

/-- Whether no PopFront in the sequence ever runs on an empty queue (tracked
on the naive model starting from contents `l`). -/
def noEmptyPopB {α : Type} : List α → List (QOp α) → Bool
  | _, [] => true
  | l, QOp.push v :: ops => noEmptyPopB (l ++ [v]) ops
  | l, QOp.pop :: ops => !l.isEmpty && noEmptyPopB l.tail ops

/-! ## fifo: Semaphore

The fifo package's semaphore.go is not among the available sources (only its
test semaphore_test.go is), so the semaphore is modelled from the spec: a
FIFO-ordered weighted semaphore with int64 capacity/outstanding counters, a
FIFO queue of blocked waiters, a numHadToWait counter, and atomic operations
TryAcquire / Acquire / Release / UpdateCapacity / Stats plus cancellation of a
queued waiter.  All mutating operations run under one mutex, so each operation
is one atomic step on the state; an `Acquire` that blocks is split into its
atomic enqueue step and the later grant (by a Release/UpdateCapacity scan) or
cancellation step, which is exactly the granularity the spec describes. -/

/-- Modelled from the spec: a blocked request: requested weight (int64 > 0)
and a stable identity used for O(1) removal; missing semaphore.go. -/
structure Waiter where
  id : Nat
  weight : Int
deriving DecidableEq

/-- Modelled from the spec: the Semaphore state: capacity, outstanding, the
FIFO waiter queue, and the numHadToWait counter; missing semaphore.go. -/
structure SemState where
  capacity : Int
  outstanding : Int
  queue : List Waiter
  numHadToWait : Int
deriving DecidableEq

/-- fifo.NewSemaphore(capacity): outstanding 0, empty queue, counter 0. -/
def newSemaphore (capacity : Int) : SemState :=
  ⟨capacity, 0, [], 0⟩

/-- Modelled from the spec: TryAcquire(n) succeeds iff the queue is empty and
outstanding + n ≤ capacity; on success outstanding += n, otherwise nothing
changes; missing semaphore.go. -/
def tryAcquire (n : Int) (s : SemState) : Bool × SemState :=
  if s.queue = [] ∧ s.outstanding + n ≤ s.capacity then
    (true, { s with outstanding := s.outstanding + n })
  else (false, s)

/-- Modelled from the spec: the front-to-back wake scan shared by Release and
UpdateCapacity: while the queue is non-empty and the front waiter's weight
fits (outstanding + w ≤ capacity), dequeue it and add its weight.  Returns
(new outstanding, remaining queue, granted waiters in order); missing
semaphore.go. -/
def wakeScanAux (cap : Int) : Int → List Waiter → Int × List Waiter × List Waiter
  | out, [] => (out, [], [])
  | out, w :: rest =>
    if out + w.weight ≤ cap then
      let r := wakeScanAux cap (out + w.weight) rest
      (r.1, r.2.1, w :: r.2.2)
    else (out, w :: rest, [])

/-- The wake scan applied to a semaphore state; also returns the granted
waiters in grant order. -/
def wakeScan (s : SemState) : SemState × List Waiter :=
  ({ s with
      outstanding := (wakeScanAux s.capacity s.outstanding s.queue).1,
      queue := (wakeScanAux s.capacity s.outstanding s.queue).2.1 },
    (wakeScanAux s.capacity s.outstanding s.queue).2.2)

/-- Modelled from the spec: Release(n) decreases outstanding by n and then
runs the wake scan; missing semaphore.go. -/
def release (n : Int) (s : SemState) : SemState × List Waiter :=
  wakeScan { s with outstanding := s.outstanding - n }

/-- Modelled from the spec: UpdateCapacity(c) sets the capacity — even below
the current outstanding — and then runs the identical wake scan; missing
semaphore.go. -/
def updateCapacity (c : Int) (s : SemState) : SemState × List Waiter :=
  wakeScan { s with capacity := c }

/-- Outcome of the atomic entry step of Acquire. -/
inductive AcquireResult where
  | fastGranted
  | enqueued
  | errCanceled
deriving DecidableEq

/-- Modelled from the spec: the atomic entry step of Acquire(token, n): fast
path identical to TryAcquire (without touching numHadToWait); otherwise, if
the cancellation token is already signaled, return its error without
enqueueing; otherwise enqueue a waiter at the tail and increment
numHadToWait; missing semaphore.go. -/
def acquire (tokenSignaled : Bool) (id : Nat) (n : Int) (s : SemState) :
    AcquireResult × SemState :=
  if s.queue = [] ∧ s.outstanding + n ≤ s.capacity then
    (AcquireResult.fastGranted, { s with outstanding := s.outstanding + n })
  else if tokenSignaled then (AcquireResult.errCanceled, s)
  else
    (AcquireResult.enqueued,
      { s with queue := s.queue ++ [⟨id, n⟩], numHadToWait := s.numHadToWait + 1 })

/-- Modelled from the spec: cancellation of a queued waiter removes it from
its current queue position (not necessarily the head) without disturbing the
relative order of the remainder, and changes no counter; missing
semaphore.go. -/
def cancelWaiter (id : Nat) (s : SemState) : SemState :=
  { s with queue := s.queue.filter (fun w => w.id != id) }

/-- fifo.Semaphore.Stats: a point-in-time snapshot. -/
structure SemStats where
  capacity : Int
  outstanding : Int
  numHadToWait : Int
deriving DecidableEq

/-- fifo.Semaphore.Stats(). -/
def stats (s : SemState) : SemStats :=
  ⟨s.capacity, s.outstanding, s.numHadToWait⟩

/-- One atomic semaphore operation, at the granularity induced by the single
mutex: a TryAcquire, an Acquire entry (with the token's state at that
instant), a cancellation of a queued waiter, a Release, or an
UpdateCapacity. -/
inductive Event where
  | tryAcq (n : Int)
  | acq (tokenSignaled : Bool) (id : Nat) (n : Int)
  | cancel (id : Nat)
  | rel (n : Int)
  | updateCap (c : Int)
deriving DecidableEq

/-- One atomic step; returns the next state and the queued waiters granted
during the step, in grant order. -/
def step (e : Event) (s : SemState) : SemState × List Waiter :=
  match e with
  | Event.tryAcq n => ((tryAcquire n s).2, [])
  | Event.acq tok id n => ((acquire tok id n s).2, [])
  | Event.cancel id => (cancelWaiter id s, [])
  | Event.rel n => release n s
  | Event.updateCap c => updateCapacity c s

/-- Run a trace of semaphore operations. -/
def exec (s : SemState) : List Event → SemState
  | [] => s
  | e :: tr => exec (step e s).1 tr

/-- The per-step lists of granted queued waiters along a trace. -/
def grantsLog (s : SemState) : List Event → List (List Waiter)
  | [] => []
  | e :: tr => (step e s).2 :: grantsLog (step e s).1 tr

/-- Total weight of a list of waiters. -/
def sumWeights (l : List Waiter) : Int :=
  (l.map Waiter.weight).sum

/-- Whether a list of waiters can be granted in order starting from
outstanding `out` under capacity `cap`, each grant adding its weight. -/
def chainFitsB (cap : Int) : Int → List Waiter → Bool
  | _, [] => true
  | out, w :: rest =>
    decide (out + w.weight ≤ cap) && chainFitsB cap (out + w.weight) rest

/-- The ids of the queued waiters, front to back. -/
def idsOf (l : List Waiter) : List Nat :=
  l.map Waiter.id

/-- The weights a step grants, including fast-path grants (which never entered
the queue): used for the release-matching ledger. -/
def grantedWeights (e : Event) (s : SemState) : List Int :=
  match e with
  | Event.tryAcq n => if (tryAcquire n s).1 then [n] else []
  | Event.acq tok id n =>
    if (acquire tok id n s).1 = AcquireResult.fastGranted then [n] else []
  | _ => ((step e s).2).map Waiter.weight

/-- The ledger of granted-but-not-yet-released weights after a step: a
Release removes the weight it returns, every step appends what it grants. -/
def stepHeld (e : Event) (held : List Int) (s : SemState) : List Int :=
  match e with
  | Event.rel n => (held.erase n) ++ grantedWeights e s
  | _ => held ++ grantedWeights e s

/-- The matched-release protocol: every Release(n) releases a weight n that
was granted earlier and not yet released. -/
def validReleaseB : List Int → SemState → List Event → Bool
  | _, _, [] => true
  | held, s, e :: tr =>
    (match e with
     | Event.rel n => held.contains n
     | _ => true) && validReleaseB (stepHeld e held s) (step e s).1 tr

/-- Weight/capacity sanity of one operation: requested weights are positive
(n ≤ 0 is caller misuse, a fatal assertion per the spec) and capacities
non-negative. -/
def eventPosB : Event → Bool
  | Event.tryAcq n => decide (0 < n)
  | Event.acq _ _ n => decide (0 < n)
  | Event.cancel _ => true
  | Event.rel n => decide (0 < n)
  | Event.updateCap c => decide (0 ≤ c)

/-!
## Theorems
-/

/-- The multiply-by-37, shift-right-8 approximation of division by 7 is exact
for all arguments below 71 (the varint length code uses it on `b ≤ 70`). -/
theorem mul37_shiftRight8_eq_div7 : ∀ b : Nat, b < 71 → (b * 37) >>> 8 = b / 7 := by
  decide

/-- A number is bounded by its bitwise or with anything. -/
theorem le_lor_left (x y : Nat) : x ≤ x ||| y := by
  apply Nat.le_of_testBit
  intro i h
  simp [Nat.testBit_lor, h]

/-- The fueled bit length agrees with `Nat.size` whenever the fuel covers the
input. -/
theorem bitsLenAux_eq_size : ∀ fuel x : Nat, x < 2 ^ fuel → bitsLenAux fuel x = Nat.size x := by
  intro fuel
  induction fuel with
  | zero =>
    intro x hx
    interval_cases x
    simp [bitsLenAux]
  | succ n ih =>
    intro x hx
    by_cases h0 : x = 0
    · simp [bitsLenAux, h0]
    · have hdiv : x / 2 < 2 ^ n := by
        have := Nat.pow_succ 2 n
        omega
      have hrest := ih (x / 2) hdiv
      have hbit : Nat.bit (Nat.bodd x) (Nat.div2 x) = x := Nat.bit_decomp x
      have hsz : Nat.size x = Nat.size (x / 2) + 1 := by
        conv_lhs => rw [← hbit]
        rw [Nat.size_bit (by rw [hbit]; exact h0), Nat.div2_val]
      simp [bitsLenAux, h0, hrest, hsz]

/-- Go `bits.Len64` agrees with `Nat.size` on the uint64 range. -/
theorem bitsLen_eq_size {x : Nat} (hx : x < 2 ^ 64) : bitsLen x = Nat.size x :=
  bitsLenAux_eq_size 64 x hx

/-- Oring in the low bit does not change the bit length of a positive number. -/
theorem size_lor_one {x : Nat} (hx : 0 < x) : Nat.size (x ||| 1) = Nat.size x := by
  apply le_antisymm
  · apply Nat.size_le.mpr
    have h1 : (1 : Nat) < 2 ^ Nat.size x := by
      have hs : 0 < Nat.size x := Nat.size_pos.mpr hx
      have : (2 : Nat) ^ 1 ≤ 2 ^ Nat.size x := Nat.pow_le_pow_right (by norm_num) hs
      omega
    exact Nat.bitwise_lt (Nat.lt_size_self x) h1
  · exact Nat.size_le_size (le_lor_left x 1)

/-- Dividing by 128 drops exactly seven bits off the bit length. -/
theorem size_div128 {x : Nat} (hx : 128 ≤ x) : Nat.size (x / 128) = Nat.size x - 7 := by
  have hs8 : 8 ≤ Nat.size x := by
    have : 7 < Nat.size x := Nat.lt_size.mpr (by norm_num; omega)
    omega
  apply le_antisymm
  · apply Nat.size_le.mpr
    have hlt : x < 2 ^ Nat.size x := Nat.lt_size_self x
    have hpow : 2 ^ (Nat.size x - 7) * 128 = 2 ^ Nat.size x := by
      have : (128 : Nat) = 2 ^ 7 := by norm_num
      rw [this, ← pow_add]
      congr 1
      omega
    apply Nat.div_lt_of_lt_mul
    omega
  · have h1 : 2 ^ (Nat.size x - 8) ≤ x / 128 := by
      apply (Nat.le_div_iff_mul_le (by norm_num)).mpr
      have : 2 ^ (Nat.size x - 8) * 128 = 2 ^ (Nat.size x - 1) := by
        have : (128 : Nat) = 2 ^ 7 := by norm_num
        rw [this, ← pow_add]
        congr 1
        omega
      have h2 : 2 ^ (Nat.size x - 1) ≤ x := by
        have := Nat.lt_size.mp (show Nat.size x - 1 < Nat.size x by omega)
        exact this
      omega
    have := Nat.lt_size.mpr h1
    omega

/-- The fueled `AppendUvarint` byte counter computes `max 1 ⌈size x / 7⌉`. -/
theorem appendUvarintLenAux_eq :
    ∀ fuel x : Nat, x < 2 ^ (7 * fuel) → appendUvarintLenAux fuel x = max 1 ((Nat.size x + 6) / 7) := by
  intro fuel
  induction fuel with
  | zero =>
    intro x hx
    interval_cases x
    simp [appendUvarintLenAux]
  | succ n ih =>
    intro x hx
    by_cases hsmall : x < 128
    · have hsz : Nat.size x ≤ 7 := Nat.size_le.mpr (by norm_num; omega)
      have hdiv : (Nat.size x + 6) / 7 < 2 :=
        (Nat.div_lt_iff_lt_mul (by norm_num)).mpr (by omega)
      simp only [appendUvarintLenAux, if_pos hsmall]
      omega
    · push_neg at hsmall
      have hdivlt : x / 128 < 2 ^ (7 * n) := by
        have hp : 2 ^ (7 * (n + 1)) = 2 ^ (7 * n) * 128 := by
          have h7 : 7 * (n + 1) = 7 * n + 7 := by ring
          rw [h7, pow_add]
          norm_num
        apply Nat.div_lt_of_lt_mul
        omega
      have hrec := ih (x / 128) hdivlt
      have hsz : Nat.size (x / 128) = Nat.size x - 7 := size_div128 hsmall
      have hs8 : 8 ≤ Nat.size x := by
        have : 7 < Nat.size x := Nat.lt_size.mpr (by norm_num; omega)
        omega
      have hge : 1 ≤ (Nat.size x - 7 + 6) / 7 :=
        (Nat.le_div_iff_mul_le (by norm_num)).mpr (by omega)
      have hge2 : 2 ≤ (Nat.size x + 6) / 7 :=
        (Nat.le_div_iff_mul_le (by norm_num)).mpr (by omega)
      have hstep : (Nat.size x - 7 + 6) + 7 = Nat.size x + 6 := by omega
      have hadd : (Nat.size x - 7 + 6 + 7) / 7 = (Nat.size x - 7 + 6) / 7 + 1 :=
        Nat.add_div_right _ (by norm_num)
      simp only [appendUvarintLenAux, if_neg (by omega : ¬ x < 128), hrec, hsz]
      omega

/-- Core computation shared by both varint length functions: on inputs below
`2 ^ 64` the `(bits.Len(x|1) + 6) * 37 >> 8` trick computes `max 1 ⌈size x / 7⌉`. -/
theorem uvarintLen_core {x : Nat} (hx : x < 2 ^ 64) :
    ((bitsLen (x ||| 1) + 6) * 37) >>> 8 = max 1 ((Nat.size x + 6) / 7) := by
  by_cases h0 : x = 0
  · subst h0
    simp only [Nat.size_zero]
    decide
  · have hpos : 0 < x := Nat.pos_of_ne_zero h0
    have hor : x ||| 1 < 2 ^ 64 := Nat.bitwise_lt hx (by norm_num)
    rw [bitsLen_eq_size hor, size_lor_one hpos]
    have hs1 : 1 ≤ Nat.size x := Nat.size_pos.mpr hpos
    have hs64 : Nat.size x ≤ 64 := Nat.size_le.mpr hx
    rw [mul37_shiftRight8_eq_div7 (Nat.size x + 6) (by omega)]
    have : 1 ≤ (Nat.size x + 6) / 7 := (Nat.le_div_iff_mul_le (by norm_num)).mpr (by omega)
    omega

/-- C10: for every uint64 `x`, `UvarintLen64 x` equals the byte length of Go
`binary.AppendUvarint(nil, x)`, which is `max 1 ⌈bitlen(x) / 7⌉`; the
multiply-by-37-shift-right-8 approximation of division by 7 is exact on the
whole input range.  Likewise `UvarintLen32` for every uint32 `y`. -/
theorem uvarintLen_correct (x y : Nat) (hx : x < 2 ^ 64) (hy : y < 2 ^ 32) :
    UvarintLen64 x = appendUvarintLen x ∧
    UvarintLen64 x = max 1 ((Nat.size x + 6) / 7) ∧
    UvarintLen32 y = appendUvarintLen y ∧
    UvarintLen32 y = max 1 ((Nat.size y + 6) / 7) := by
  have hy64 : y < 2 ^ 64 := lt_of_lt_of_le hy (by norm_num)
  have hx70 : x < 2 ^ (7 * 10) := lt_of_lt_of_le hx (by norm_num)
  have hy70 : y < 2 ^ (7 * 10) := lt_of_lt_of_le hy64 (by norm_num)
  have h64 : UvarintLen64 x = max 1 ((Nat.size x + 6) / 7) := uvarintLen_core hx
  have h32 : UvarintLen32 y = max 1 ((Nat.size y + 6) / 7) := uvarintLen_core hy64
  have a64 : appendUvarintLen x = max 1 ((Nat.size x + 6) / 7) :=
    appendUvarintLenAux_eq 10 x hx70
  have a32 : appendUvarintLen y = max 1 ((Nat.size y + 6) / 7) :=
    appendUvarintLenAux_eq 10 y hy70
  exact ⟨by rw [h64, a64], h64, by rw [h32, a32], h32⟩

/-- Witness for C10 at x = 300 (2-byte varint) and y = 70000 (3-byte varint). -/
theorem uvarintLen_correct_witness :
    (300 : Nat) < 2 ^ 64 ∧ (70000 : Nat) < 2 ^ 32 ∧
    (UvarintLen64 300 = appendUvarintLen 300 ∧
     UvarintLen64 300 = max 1 ((Nat.size 300 + 6) / 7) ∧
     UvarintLen32 70000 = appendUvarintLen 70000 ∧
     UvarintLen32 70000 = max 1 ((Nat.size 70000 + 6) / 7)) :=
  ⟨by norm_num, by norm_num, uvarintLen_correct 300 70000 (by norm_num) (by norm_num)⟩

/-- C8: ScaleUint64(x, a, b) is documented to equal
min(⌈x·a/b⌉, 2^64 − 1) and in particular must not wrap around to 0 when the
ceiling equals 2^64.  The code violates this: at x = 31,
a = 1190112520884487201, b = 2 the product is 2^65 − 1, the 128-bit division
yields quo = 2^64 − 1 with nonzero remainder, and the final `quo + 1` wraps to
0, while the documented value is 2^64 − 1. -/
theorem scaleUint64_wraparound_bug :
    Crlib.ScaleUint64 31 1190112520884487201 2 = some 0 ∧
    Crlib.scaleExact 31 1190112520884487201 2 = Crlib.uint64Max ∧
    Crlib.scaleExact 31 1190112520884487201 2 ≠ 0 := by
  refine ⟨?_, ?_, ?_⟩ <;> decide

/-- Summing a mapped take of four elements peels the four heads. -/
theorem map_sum_take_four (f : Nat → Nat) (a b c d : Nat) (l : List Nat) (m : Nat) :
    (((a :: b :: c :: d :: l).take (m + 4)).map f).sum
      = f a + f b + f c + f d + ((l.take m).map f).sum := by
  show (((a :: b :: c :: d :: l).take (m + 1 + 1 + 1 + 1)).map f).sum = _
  simp only [List.take_succ_cons, List.map_cons, List.sum_cons]
  omega

/-- The tail loop, entered with the cursor on element `k`, adds the varint
lengths of the elements from position `k` on. -/
theorem sumTailLoop_eq (values : List Nat) (base : Nat) (hbase : 0 < base) :
    ∀ fuel k acc : Nat, values.length - k < fuel →
      sumTailLoop values base (base + 8 * values.length - 1) fuel (base + 8 * k) acc =
        some (acc + ((values.drop k).map UvarintLen64).sum) := by
  intro fuel
  induction fuel with
  | zero => intro k acc hk; omega
  | succ n ih =>
    intro k acc hk
    by_cases hlt : k < values.length
    · have hcond : base + 8 * k < base + 8 * values.length - 1 := by omega
      have hread : read64 base values (base + 8 * k) = some (values.getD k 0) := by
        have h1 : base + 8 * k - base = 8 * k := by omega
        simp only [read64, h1, Nat.mul_mod_right, Nat.mul_div_cancel_left k (by norm_num : 0 < 8)]
        simp [hlt, le_refl, Nat.le_add_right]
      have hstepaddr : base + 8 * k + 8 = base + 8 * (k + 1) := by ring
      have hrec := ih (k + 1) (acc + UvarintLen64 (values.getD k 0)) (by omega)
      simp only [sumTailLoop, if_pos hcond, hread]
      rw [hstepaddr, hrec]
      have hdrop : values.drop k = values[k] :: values.drop (k + 1) :=
        List.drop_eq_getElem_cons hlt
      have hgetD : values.getD k 0 = values[k] := List.getD_eq_getElem values 0 hlt
      rw [hdrop, hgetD, List.map_cons, List.sum_cons]
      congr 1
      omega
    · have hcond : ¬ (base + 8 * k < base + 8 * values.length - 1) := by omega
      have hdrop : values.drop k = [] := List.drop_eq_nil_of_le (by omega)
      simp [sumTailLoop, hcond, hdrop]

/-- The unrolled loop consumes elements four at a time until fewer than four
positions separate the cursor from the stop address, returning the advanced
cursor and the partial sum. -/
theorem sumQuadLoop_eq (values : List Nat) (base : Nat) (hbase : 0 < base)
    (hlen4 : 4 ≤ values.length) :
    ∀ fuel k acc : Nat, k ≤ values.length → values.length - k < 4 * fuel →
      ∃ k2 : Nat, k ≤ k2 ∧ k2 ≤ values.length ∧ values.length < k2 + 4 ∧
        sumQuadLoop values base (base + 8 * values.length - 25) fuel (base + 8 * k) acc =
          some (base + 8 * k2,
            acc + (((values.drop k).take (k2 - k)).map UvarintLen64).sum) := by
  intro fuel
  induction fuel with
  | zero => intro k acc hkle hk; omega
  | succ n ih =>
    intro k acc hkle hk
    by_cases hcont : k + 4 ≤ values.length
    · have hcond : base + 8 * k < base + 8 * values.length - 25 := by omega
      have hread : ∀ j : Nat, j < values.length →
          read64 base values (base + 8 * j) = some (values.getD j 0) := by
        intro j hj
        have h1 : base + 8 * j - base = 8 * j := by omega
        simp only [read64, h1, Nat.mul_mod_right, Nat.mul_div_cancel_left j (by norm_num : 0 < 8)]
        simp [hj, le_refl, Nat.le_add_right]
      have ha1 : base + 8 * k + 8 = base + 8 * (k + 1) := by ring
      have ha2 : base + 8 * k + 16 = base + 8 * (k + 2) := by ring
      have ha3 : base + 8 * k + 24 = base + 8 * (k + 3) := by ring
      have ha4 : base + 8 * k + 32 = base + 8 * (k + 4) := by ring
      obtain ⟨k2, hk2a, hk2b, hk2c, hk2eq⟩ :=
        ih (k + 4) (acc + UvarintLen64 (values.getD k 0) + UvarintLen64 (values.getD (k + 1) 0)
          + UvarintLen64 (values.getD (k + 2) 0) + UvarintLen64 (values.getD (k + 3) 0))
          (by omega) (by omega)
      refine ⟨k2, by omega, hk2b, hk2c, ?_⟩
      simp only [sumQuadLoop, if_pos hcond, ha1, ha2, ha3, ha4, hread k (by omega),
        hread (k + 1) (by omega), hread (k + 2) (by omega), hread (k + 3) (by omega)]
      rw [hk2eq]
      refine congrArg some ?_
      refine Prod.ext rfl ?_
      have e0 : values.drop k
          = values.getD k 0 :: values.getD (k + 1) 0 :: values.getD (k + 2) 0 ::
            values.getD (k + 3) 0 :: values.drop (k + 4) := by
        rw [List.drop_eq_getElem_cons (show k < values.length by omega),
          List.drop_eq_getElem_cons (show k + 1 < values.length by omega),
          List.drop_eq_getElem_cons (show k + 2 < values.length by omega),
          List.drop_eq_getElem_cons (show k + 3 < values.length by omega),
          List.getD_eq_getElem values 0 (show k < values.length by omega),
          List.getD_eq_getElem values 0 (show k + 1 < values.length by omega),
          List.getD_eq_getElem values 0 (show k + 2 < values.length by omega),
          List.getD_eq_getElem values 0 (show k + 3 < values.length by omega)]
      have htk : k2 - k = (k2 - (k + 4)) + 4 := by omega
      rw [e0, htk, map_sum_take_four]
      omega
    · have hcond : ¬ (base + 8 * k < base + 8 * values.length - 25) := by omega
      refine ⟨k, le_refl k, by omega, by omega, ?_⟩
      rw [sumQuadLoop, if_neg hcond]
      simp

set_option maxRecDepth 4000 in
/-- For every slice with a real (non-null, in-address-space) backing pointer —
in particular every non-nil slice, including the empty one — UvarintLenSum64
performs only valid reads and returns the sum of the per-element varint
lengths.  Only the nil slice (`base = 0`) escapes this theorem. -/
theorem uvarintLenSum64_correct (base : Nat) (values : List Nat) (hbase : 0 < base)
    (hbound : base + 8 * values.length ≤ 2 ^ 64) :
    UvarintLenSum64 base values = some ((values.map UvarintLen64).sum) := by
  have hend : (base + values.length * 8 + (2 ^ 64 - 1)) % 2 ^ 64
      = base + 8 * values.length - 1 := by
    have h1 : base + values.length * 8 + (2 ^ 64 - 1)
        = (base + 8 * values.length - 1) + 2 ^ 64 := by omega
    rw [h1, Nat.add_mod_right, Nat.mod_eq_of_lt (by omega)]
  by_cases h4 : 4 ≤ values.length
  · have hend4 : ((base + 8 * values.length - 1) + (2 ^ 64 - 24)) % 2 ^ 64
        = base + 8 * values.length - 25 := by
      have h1 : (base + 8 * values.length - 1) + (2 ^ 64 - 24)
          = (base + 8 * values.length - 25) + 2 ^ 64 := by omega
      rw [h1, Nat.add_mod_right, Nat.mod_eq_of_lt (by omega)]
    obtain ⟨k2, hk2a, hk2b, hk2c, hk2eq⟩ :=
      sumQuadLoop_eq values base hbase h4 (values.length + 1) 0 0 (by omega) (by omega)
    simp only [Nat.mul_zero, Nat.add_zero, Nat.sub_zero, List.drop_zero, Nat.zero_add] at hk2eq
    have htail := sumTailLoop_eq values base hbase (values.length + 1) k2
      ((((values.take k2).map UvarintLen64).sum)) (by omega)
    simp only [UvarintLenSum64, hend, hend4, if_pos h4, hk2eq, Option.some_bind, htail]
    have hsplit : values = values.take k2 ++ values.drop k2 :=
      (List.take_append_drop k2 values).symm
    refine congrArg some ?_
    conv_rhs => rw [hsplit]
    rw [List.map_append, List.sum_append]
  · have htail := sumTailLoop_eq values base hbase (values.length + 1) 0 0 (by omega)
    simp only [Nat.mul_zero, Nat.add_zero, List.drop_zero, Nat.zero_add] at htail
    simp only [UvarintLenSum64, hend, if_neg h4, htail]

/-- C9: UvarintLenSum64 is claimed to evaluate without any invalid memory
access on every slice, including the nil slice.  The code violates this on the
nil slice: the data pointer is null (`base = 0`), so `end := p + len*8 - 1`
wraps to `2 ^ 64 - 1` in uintptr arithmetic, the tail loop condition
`uintptr(p) < uintptr(end)` holds, and the loop dereferences the null pointer
(`none`), instead of returning the correct total 0. -/
theorem uvarintLenSum64_nil_bug :
    UvarintLenSum64 0 [] = none ∧ (([] : List Nat).map UvarintLen64).sum = 0 := by
  constructor
  · decide
  · rfl

/-- Pushing onto the chunk list appends the element to the abstraction. -/
theorem flatten_pushChunks {α : Type} (cap : Nat) (v : α) :
    ∀ l : List (Chunk α), ((pushChunks cap v l).map Chunk.elems).flatten
      = (l.map Chunk.elems).flatten ++ [v] := by
  intro l
  induction l with
  | nil => simp [pushChunks]
  | cons c rest ih =>
    cases rest with
    | nil =>
      by_cases h : c.dead + c.elems.length < cap
      · simp [pushChunks, h]
      · simp [pushChunks, h]
    | cons c2 rest2 =>
      simp only [pushChunks, List.map_cons, List.flatten_cons, ih]
      simp

/-- Pushing preserves the per-chunk well-formedness conditions. -/
theorem pushChunks_WF {α : Type} (cap : Nat) (hcap : 0 < cap) (v : α) :
    ∀ l : List (Chunk α), (∀ c ∈ l, c.elems ≠ [] ∧ c.dead + c.elems.length ≤ cap) →
      ∀ c ∈ pushChunks cap v l, c.elems ≠ [] ∧ c.dead + c.elems.length ≤ cap := by
  intro l
  induction l with
  | nil =>
    intro _ d hd
    simp only [pushChunks, List.mem_singleton] at hd
    subst hd
    refine ⟨by simp, ?_⟩
    simp only [List.length_singleton]
    omega
  | cons c0 rest ih =>
    intro hall d hd
    cases rest with
    | nil =>
      by_cases h : c0.dead + c0.elems.length < cap
      · simp only [pushChunks, if_pos h, List.mem_singleton] at hd
        have hc0 := hall c0 (by simp)
        subst hd
        refine ⟨by simp, ?_⟩
        simp only [List.length_append, List.length_singleton]
        omega
      · simp only [pushChunks, if_neg h, List.mem_cons, List.mem_singleton,
          List.not_mem_nil, or_false] at hd
        have hc0 := hall c0 (by simp)
        rcases hd with hd | hd
        · rw [hd]
          exact hc0
        · rw [hd]
          refine ⟨by simp, ?_⟩
          simp only [List.length_singleton]
          omega
    | cons c2 rest2 =>
      simp only [pushChunks, List.mem_cons] at hd
      rcases hd with hd | hd
      · rw [hd]
        exact hall c0 (by simp)
      · exact ih (fun e he => hall e (by simp [he])) d hd

/-- PushBack refines appending on the naive list queue. -/
theorem pushBack_refines {α : Type} (cap : Nat) (hcap : 0 < cap) (v : α) (q : CQueue α)
    (hwf : WFQ cap q) :
    WFQ cap (pushBack cap v q) ∧ absCQ (pushBack cap v q) = absCQ q ++ [v] := by
  obtain ⟨hchunks, hlen⟩ := hwf
  have habs : absCQ (pushBack cap v q) = absCQ q ++ [v] := by
    simp only [absCQ, pushBack]
    exact flatten_pushChunks cap v q.chunks
  refine ⟨⟨pushChunks_WF cap hcap v q.chunks hchunks, ?_⟩, habs⟩
  simp only [pushBack] at habs ⊢
  simp only [absCQ] at habs ⊢
  rw [habs]
  simp [hlen, absCQ]

/-- A well-formed queue with empty abstraction has no chunks. -/
theorem absCQ_nil_chunks {α : Type} (cap : Nat) (q : CQueue α) (hwf : WFQ cap q)
    (habs : absCQ q = []) : q.chunks = [] := by
  obtain ⟨hchunks, _⟩ := hwf
  cases hq : q.chunks with
  | nil => rfl
  | cons c rest =>
    exfalso
    have h1 := (hchunks c (by rw [hq]; simp)).1
    simp only [absCQ, hq, List.map_cons, List.flatten_cons] at habs
    exact h1 (List.append_eq_nil.mp habs).1

/-- PopFront refines dropping the front of the naive list queue. -/
theorem popFront_refines {α : Type} (cap : Nat) (q : CQueue α) (hwf : WFQ cap q) :
    WFQ cap (popFront q) ∧ absCQ (popFront q) = (absCQ q).tail := by
  obtain ⟨hchunks, hlen⟩ := hwf
  cases hq : q.chunks with
  | nil =>
    have habs : absCQ q = [] := by simp [absCQ, hq]
    constructor
    · exact ⟨by simp [popFront, hq, hchunks], by simp [popFront, hq, hlen]⟩
    · simp [popFront, hq, habs]
  | cons c rest =>
    have hc := hchunks c (by rw [hq]; simp)
    have habs : absCQ q = c.elems ++ (rest.map Chunk.elems).flatten := by
      simp [absCQ, hq]
    cases he : c.elems with
    | nil => exact absurd he hc.1
    | cons x es =>
      cases es with
      | nil =>
        have hpop : popFront q = ⟨rest, q.len - 1⟩ := by
          simp [popFront, hq, he]
        have habs2 : absCQ (popFront q) = (rest.map Chunk.elems).flatten := by
          simp [hpop, absCQ]
        constructor
        · constructor
          · intro d hd
            rw [hpop] at hd
            exact hchunks d (by rw [hq]; simp [hd])
          · rw [hpop] at habs2 ⊢
            rw [habs2, hlen, habs, he]
            simp
        · rw [habs2, habs, he]
          simp
      | cons y es2 =>
        have hpop : popFront q = ⟨⟨c.dead + 1, y :: es2⟩ :: rest, q.len - 1⟩ := by
          simp [popFront, hq, he]
        have habs2 : absCQ (popFront q) = (y :: es2) ++ (rest.map Chunk.elems).flatten := by
          simp [hpop, absCQ]
        constructor
        · constructor
          · intro d hd
            rw [hpop] at hd
            simp only [List.mem_cons] at hd
            rcases hd with hd | hd
            · subst hd
              refine ⟨by simp, ?_⟩
              have := hc.2
              rw [he] at this
              simp at this ⊢
              omega
            · exact hchunks d (by rw [hq]; simp [hd])
          · rw [hpop] at habs2 ⊢
            rw [habs2, hlen, habs, he]
            simp
        · rw [habs2, habs, he]
          simp

/-- PeekFront returns the head of the abstraction (or `none` when empty). -/
theorem peekFront_refines {α : Type} (cap : Nat) (q : CQueue α) (hwf : WFQ cap q) :
    peekFront q = (absCQ q).head? := by
  obtain ⟨hchunks, _⟩ := hwf
  cases hq : q.chunks with
  | nil => simp [peekFront, absCQ, hq]
  | cons c rest =>
    have hc := (hchunks c (by rw [hq]; simp)).1
    cases he : c.elems with
    | nil => exact absurd he hc
    | cons x es => simp [peekFront, absCQ, hq, he]

/-- One queue operation on the chunked queue refines the naive list queue. -/
theorem cqStep_refines {α : Type} (cap : Nat) (hcap : 0 < cap) (q : CQueue α) (op : QOp α)
    (hwf : WFQ cap q) :
    WFQ cap (cqStep cap q op) ∧ absCQ (cqStep cap q op) = naiveStep (absCQ q) op := by
  cases op with
  | push v =>
    obtain ⟨h1, h2⟩ := pushBack_refines cap hcap v q hwf
    exact ⟨h1, by simp [cqStep, naiveStep, h2]⟩
  | pop =>
    obtain ⟨h1, h2⟩ := popFront_refines cap q hwf
    exact ⟨h1, by simp [cqStep, naiveStep, h2]⟩

/-- Running any operation sequence on the chunked queue refines the naive
list queue, preserving well-formedness. -/
theorem cqRun_refines {α : Type} (cap : Nat) (hcap : 0 < cap) :
    ∀ (ops : List (QOp α)) (q : CQueue α), WFQ cap q →
      WFQ cap (cqRun cap q ops) ∧ absCQ (cqRun cap q ops) = naiveRun (absCQ q) ops := by
  intro ops
  induction ops with
  | nil => intro q hwf; exact ⟨hwf, rfl⟩
  | cons op ops ih =>
    intro q hwf
    obtain ⟨h1, h2⟩ := cqStep_refines cap hcap q op hwf
    obtain ⟨h3, h4⟩ := ih (cqStep cap q op) h1
    refine ⟨h3, ?_⟩
    simp only [cqRun, naiveRun, h4, h2]

/-- Run length accounting on the naive queue: when no pop hits an empty
queue, final length + pops = initial length + pushes. -/
theorem naiveRun_length {α : Type} :
    ∀ (ops : List (QOp α)) (l : List α), noEmptyPopB l ops = true →
      (naiveRun l ops).length + numPops ops = l.length + numPushes ops := by
  intro ops
  induction ops with
  | nil => intro l _; simp [naiveRun, numPops, numPushes]
  | cons op ops ih =>
    intro l hne
    cases op with
    | push v =>
      simp only [noEmptyPopB] at hne
      have := ih (l ++ [v]) hne
      simp only [naiveRun, naiveStep, numPops, numPushes]
      simp only [List.length_append, List.length_singleton] at this
      omega
    | pop =>
      simp only [noEmptyPopB, Bool.and_eq_true, Bool.not_eq_eq_eq_not, Bool.not_true] at hne
      obtain ⟨hl, hne⟩ := hne
      have hlne : l ≠ [] := by
        intro h
        rw [h] at hl
        simp at hl
      have := ih l.tail hne
      simp only [naiveRun, naiveStep, numPops, numPushes]
      have hlen : l.tail.length = l.length - 1 := by simp [List.length_tail]
      have hpos : 0 < l.length := List.length_pos.mpr hlne
      omega

/-- C7 (amended): for every sequence of PushBack/PopFront operations and every
positive chunk capacity, the pooled chunked queue behaves exactly like the
naive list queue: same contents, PeekFront returns the earliest not-yet-popped
element (`none` when empty), Len equals the naive queue's length, operations
on an empty queue are no-ops or return the empty indicator, and — for
sequences in which PopFront is never invoked on an empty queue — Len equals
pushes minus pops.  (The unrestricted `Len = pushes - pops` clause of the
claim fails because a PopFront on an empty queue is a no-op; see the
counterexample.) -/
theorem queue_refinement {α : Type} (cap : Nat) (ops : List (QOp α)) (hcap : 0 < cap) :
    absCQ (cqRun cap emptyCQueue ops) = naiveRun [] ops ∧
    peekFront (cqRun cap emptyCQueue ops) = (naiveRun [] ops).head? ∧
    (cqRun cap emptyCQueue ops).len = (naiveRun [] ops).length ∧
    (naiveRun [] ops = [] →
      popFront (cqRun cap emptyCQueue ops) = cqRun cap emptyCQueue ops ∧
      peekFront (cqRun cap emptyCQueue ops) = none) ∧
    (noEmptyPopB [] ops = true →
      (cqRun cap emptyCQueue ops).len + numPops ops = numPushes ops) := by
  have hwf0 : WFQ cap (emptyCQueue : CQueue α) := by
    constructor
    · intro c hc
      simp [emptyCQueue] at hc
    · simp [emptyCQueue, absCQ]
  have habs0 : absCQ (emptyCQueue : CQueue α) = [] := by simp [emptyCQueue, absCQ]
  obtain ⟨hwf, habs⟩ := cqRun_refines cap hcap ops emptyCQueue hwf0
  rw [habs0] at habs
  have hlen : (cqRun cap emptyCQueue ops).len = (naiveRun [] ops).length := by
    rw [hwf.2, habs]
  refine ⟨habs, ?_, hlen, ?_, ?_⟩
  · rw [peekFront_refines cap _ hwf, habs]
  · intro hempty
    have hchn : (cqRun cap emptyCQueue ops).chunks = [] :=
      absCQ_nil_chunks cap _ hwf (by rw [habs, hempty])
    constructor
    · cases hq : cqRun cap emptyCQueue ops with
      | mk chs ln =>
        rw [hq] at hchn
        simp only at hchn
        subst hchn
        simp [popFront]
    · rw [peekFront_refines cap _ hwf, habs, hempty]
      rfl
  · intro hne
    have := naiveRun_length ops [] hne
    simp only [List.length_nil, Nat.zero_add] at this
    omega

/-- C7 counterexample: the claim's unrestricted clause that Len always equals
the number of pushes minus the number of pops fails on the one-operation
sequence consisting of a single PopFront on the empty queue: the pop is a
no-op, Len stays 0, but pushes - pops = -1. -/
theorem queue_len_counterexample :
    (cqRun 3 emptyCQueue [(QOp.pop : QOp Nat)]).len = 0 ∧
    numPushes [(QOp.pop : QOp Nat)] = 0 ∧
    numPops [(QOp.pop : QOp Nat)] = 1 ∧
    ((cqRun 3 emptyCQueue [(QOp.pop : QOp Nat)]).len : Int) ≠
      (numPushes [(QOp.pop : QOp Nat)] : Int) - (numPops [(QOp.pop : QOp Nat)] : Int) := by
  refine ⟨?_, ?_, ?_, ?_⟩ <;> decide

/-- Witness for C7 at chunk capacity 3 and the operation sequence
push 1, push 2, pop, push 3, pop (which never pops an empty queue). -/
theorem queue_refinement_witness :
    0 < 3 ∧
    (absCQ (cqRun 3 emptyCQueue [QOp.push 1, QOp.push 2, QOp.pop, QOp.push 3, QOp.pop])
        = naiveRun [] [QOp.push 1, QOp.push 2, QOp.pop, QOp.push 3, QOp.pop] ∧
      peekFront (cqRun 3 emptyCQueue [QOp.push 1, QOp.push 2, QOp.pop, QOp.push 3, QOp.pop])
        = (naiveRun [] [QOp.push 1, QOp.push 2, QOp.pop, QOp.push 3, QOp.pop]).head? ∧
      (cqRun 3 emptyCQueue [QOp.push 1, QOp.push 2, QOp.pop, QOp.push 3, QOp.pop]).len
        = (naiveRun [] [QOp.push 1, QOp.push 2, QOp.pop, QOp.push 3, QOp.pop]).length ∧
      (naiveRun [] [QOp.push 1, QOp.push 2, QOp.pop, QOp.push 3, QOp.pop] = [] →
        popFront (cqRun 3 emptyCQueue [QOp.push 1, QOp.push 2, QOp.pop, QOp.push 3, QOp.pop])
          = cqRun 3 emptyCQueue [QOp.push 1, QOp.push 2, QOp.pop, QOp.push 3, QOp.pop] ∧
        peekFront (cqRun 3 emptyCQueue [QOp.push 1, QOp.push 2, QOp.pop, QOp.push 3, QOp.pop])
          = none) ∧
      (noEmptyPopB [] [QOp.push 1, QOp.push 2, QOp.pop, QOp.push 3, QOp.pop] = true →
        (cqRun 3 emptyCQueue
            [QOp.push 1, QOp.push 2, QOp.pop, QOp.push 3, QOp.pop]).len
          + numPops [QOp.push 1, QOp.push 2, QOp.pop, QOp.push 3, QOp.pop]
          = numPushes [QOp.push (1 : Nat), QOp.push 2, QOp.pop, QOp.push 3, QOp.pop])) :=
  ⟨by decide, queue_refinement 3 [QOp.push 1, QOp.push 2, QOp.pop, QOp.push 3, QOp.pop]
    (by decide)⟩

/-- Full characterization of the wake scan: the granted waiters are a front
segment of the queue that fits in grant order, the remainder is untouched,
outstanding grows by the granted weight, and the scan stops exactly at the
first front waiter that does not fit. -/
theorem wakeScanAux_spec (cap : Int) :
    ∀ (q : List Waiter) (out : Int),
      q = (wakeScanAux cap out q).2.2 ++ (wakeScanAux cap out q).2.1 ∧
      (wakeScanAux cap out q).1 = out + sumWeights (wakeScanAux cap out q).2.2 ∧
      chainFitsB cap out (wakeScanAux cap out q).2.2 = true ∧
      (∀ w rest, (wakeScanAux cap out q).2.1 = w :: rest →
        ¬((wakeScanAux cap out q).1 + w.weight ≤ cap)) := by
  intro q
  induction q with
  | nil =>
    intro out
    refine ⟨rfl, by simp [wakeScanAux, sumWeights], by simp [wakeScanAux, chainFitsB], ?_⟩
    intro w rest h
    simp [wakeScanAux] at h
  | cons w0 rest ih =>
    intro out
    by_cases h : out + w0.weight ≤ cap
    · obtain ⟨ih1, ih2, ih3, ih4⟩ := ih (out + w0.weight)
      have hunf : wakeScanAux cap out (w0 :: rest)
          = ((wakeScanAux cap (out + w0.weight) rest).1,
             (wakeScanAux cap (out + w0.weight) rest).2.1,
             w0 :: (wakeScanAux cap (out + w0.weight) rest).2.2) := by
        simp [wakeScanAux, h]
      rw [hunf]
      refine ⟨?_, ?_, ?_, ?_⟩
      · simpa using congrArg (fun l => w0 :: l) ih1
      · simp only [sumWeights, List.map_cons, List.sum_cons]
        rw [ih2]
        simp only [sumWeights]
        omega
      · simp only [chainFitsB, Bool.and_eq_true, decide_eq_true_eq]
        exact ⟨h, ih3⟩
      · exact ih4
    · have hunf : wakeScanAux cap out (w0 :: rest) = (out, w0 :: rest, []) := by
        simp [wakeScanAux, h]
      rw [hunf]
      refine ⟨by simp, by simp [sumWeights], by simp [chainFitsB], ?_⟩
      intro w r hw
      simp only at hw
      obtain ⟨hw1, _⟩ := List.cons.injEq .. ▸ hw
      cases hw
      exact h

/-- C1: TryAcquire(n) with n > 0 returns true exactly when the wait queue is
empty and outstanding + n ≤ capacity; on success it only adds n to
outstanding, and on failure it changes nothing. -/
theorem tryAcquire_spec (n : Int) (s : SemState) (hn : 0 < n) :
    ((tryAcquire n s).1 = true ↔ s.queue = [] ∧ s.outstanding + n ≤ s.capacity) ∧
    ((tryAcquire n s).1 = true →
      (tryAcquire n s).2 = { s with outstanding := s.outstanding + n }) ∧
    ((tryAcquire n s).1 = false → (tryAcquire n s).2 = s) := by
  by_cases h : s.queue = [] ∧ s.outstanding + n ≤ s.capacity
  · simp [tryAcquire, h]
  · simp [tryAcquire, h]

/-- Witness for C1 on the test scenario state: capacity 10, outstanding 5,
empty queue; TryAcquire(10) must fail and change nothing. -/
theorem tryAcquire_spec_witness :
    (0 : Int) < 10 ∧
    (((tryAcquire 10 (⟨10, 5, [], 0⟩ : SemState)).1 = true ↔
        (⟨10, 5, [], 0⟩ : SemState).queue = [] ∧
        (⟨10, 5, [], 0⟩ : SemState).outstanding + 10 ≤ (⟨10, 5, [], 0⟩ : SemState).capacity) ∧
      ((tryAcquire 10 (⟨10, 5, [], 0⟩ : SemState)).1 = true →
        (tryAcquire 10 (⟨10, 5, [], 0⟩ : SemState)).2
          = { (⟨10, 5, [], 0⟩ : SemState) with
                outstanding := (⟨10, 5, [], 0⟩ : SemState).outstanding + 10 }) ∧
      ((tryAcquire 10 (⟨10, 5, [], 0⟩ : SemState)).1 = false →
        (tryAcquire 10 (⟨10, 5, [], 0⟩ : SemState)).2 = (⟨10, 5, [], 0⟩ : SemState))) :=
  ⟨by decide, tryAcquire_spec 10 ⟨10, 5, [], 0⟩ (by decide)⟩

/-- Sum of weights of a prefix-decomposed waiter list is nonnegative when all
weights are positive. -/
theorem sumWeights_nonneg (l : List Waiter) (h : ∀ w ∈ l, 0 < w.weight) :
    0 ≤ sumWeights l := by
  induction l with
  | nil => simp [sumWeights]
  | cons w rest ih =>
    have hw := h w (by simp)
    have hr := ih (fun x hx => h x (by simp [hx]))
    simp only [sumWeights, List.map_cons, List.sum_cons] at hr ⊢
    omega

/-- C2: Release(n) with n > 0 first decreases outstanding by exactly n, then
grants a maximal front segment of the queue in order — each granted waiter
fitting at the moment of its grant — removes exactly those waiters, leaves
capacity and numHadToWait alone, and stops at the first front waiter that does
not fit, granting nobody behind it. -/
theorem release_spec (n : Int) (s : SemState) (hn : 0 < n) :
    s.queue = (release n s).2 ++ (release n s).1.queue ∧
    (release n s).1.outstanding = s.outstanding - n + sumWeights (release n s).2 ∧
    (release n s).1.capacity = s.capacity ∧
    (release n s).1.numHadToWait = s.numHadToWait ∧
    chainFitsB s.capacity (s.outstanding - n) (release n s).2 = true ∧
    (∀ w rest, (release n s).1.queue = w :: rest →
      ¬((release n s).1.outstanding + w.weight ≤ s.capacity)) := by
  obtain ⟨h1, h2, h3, h4⟩ := wakeScanAux_spec s.capacity s.queue (s.outstanding - n)
  exact ⟨h1, h2, rfl, rfl, h3, h4⟩

/-- Witness for C2 on the test scenario: capacity 10, outstanding 10, waiters
8, 1, 5 queued; Release(5) grants the 8 and the 1 (outstanding 9) and stops at
the 5. -/
theorem release_spec_witness :
    (0 : Int) < 5 ∧
    ((⟨10, 10, [⟨1, 8⟩, ⟨2, 1⟩, ⟨3, 5⟩], 3⟩ : SemState).queue
        = (release 5 ⟨10, 10, [⟨1, 8⟩, ⟨2, 1⟩, ⟨3, 5⟩], 3⟩).2
          ++ (release 5 ⟨10, 10, [⟨1, 8⟩, ⟨2, 1⟩, ⟨3, 5⟩], 3⟩).1.queue ∧
      (release 5 ⟨10, 10, [⟨1, 8⟩, ⟨2, 1⟩, ⟨3, 5⟩], 3⟩).1.outstanding
        = (⟨10, 10, [⟨1, 8⟩, ⟨2, 1⟩, ⟨3, 5⟩], 3⟩ : SemState).outstanding - 5
          + sumWeights (release 5 ⟨10, 10, [⟨1, 8⟩, ⟨2, 1⟩, ⟨3, 5⟩], 3⟩).2 ∧
      (release 5 ⟨10, 10, [⟨1, 8⟩, ⟨2, 1⟩, ⟨3, 5⟩], 3⟩).1.capacity
        = (⟨10, 10, [⟨1, 8⟩, ⟨2, 1⟩, ⟨3, 5⟩], 3⟩ : SemState).capacity ∧
      (release 5 ⟨10, 10, [⟨1, 8⟩, ⟨2, 1⟩, ⟨3, 5⟩], 3⟩).1.numHadToWait
        = (⟨10, 10, [⟨1, 8⟩, ⟨2, 1⟩, ⟨3, 5⟩], 3⟩ : SemState).numHadToWait ∧
      chainFitsB (⟨10, 10, [⟨1, 8⟩, ⟨2, 1⟩, ⟨3, 5⟩], 3⟩ : SemState).capacity
        ((⟨10, 10, [⟨1, 8⟩, ⟨2, 1⟩, ⟨3, 5⟩], 3⟩ : SemState).outstanding - 5)
        (release 5 ⟨10, 10, [⟨1, 8⟩, ⟨2, 1⟩, ⟨3, 5⟩], 3⟩).2 = true ∧
      (∀ w rest, (release 5 ⟨10, 10, [⟨1, 8⟩, ⟨2, 1⟩, ⟨3, 5⟩], 3⟩).1.queue = w :: rest →
        ¬((release 5 ⟨10, 10, [⟨1, 8⟩, ⟨2, 1⟩, ⟨3, 5⟩], 3⟩).1.outstanding + w.weight
            ≤ (⟨10, 10, [⟨1, 8⟩, ⟨2, 1⟩, ⟨3, 5⟩], 3⟩ : SemState).capacity))) :=
  ⟨by decide, release_spec 5 ⟨10, 10, [⟨1, 8⟩, ⟨2, 1⟩, ⟨3, 5⟩], 3⟩ (by decide)⟩

/-- C5: UpdateCapacity(c) with c ≥ 0 always succeeds — even below the current
outstanding, which is tolerated and never revokes granted weight (outstanding
only grows during the step) — sets capacity to c, and runs the identical
front-of-queue wake scan used by Release, admitting the maximal fitting front
segment in arrival order. -/
theorem updateCapacity_spec (c : Int) (s : SemState) (hc : 0 ≤ c)
    (hq : ∀ w ∈ s.queue, 0 < w.weight) :
    (updateCapacity c s).1.capacity = c ∧
    updateCapacity c s = wakeScan { s with capacity := c } ∧
    s.queue = (updateCapacity c s).2 ++ (updateCapacity c s).1.queue ∧
    (updateCapacity c s).1.outstanding
      = s.outstanding + sumWeights (updateCapacity c s).2 ∧
    (updateCapacity c s).1.numHadToWait = s.numHadToWait ∧
    chainFitsB c s.outstanding (updateCapacity c s).2 = true ∧
    (∀ w rest, (updateCapacity c s).1.queue = w :: rest →
      ¬((updateCapacity c s).1.outstanding + w.weight ≤ c)) ∧
    s.outstanding ≤ (updateCapacity c s).1.outstanding := by
  obtain ⟨h1, h2, h3, h4⟩ := wakeScanAux_spec c s.queue s.outstanding
  refine ⟨rfl, rfl, h1, h2, rfl, h3, h4, ?_⟩
  have hsub : ∀ w ∈ (updateCapacity c s).2, 0 < w.weight := by
    intro w hw
    apply hq
    rw [h1]
    exact List.mem_append_left _ hw
  have h2st : (updateCapacity c s).1.outstanding
      = s.outstanding + sumWeights (updateCapacity c s).2 := h2
  have := sumWeights_nonneg _ hsub
  omega

/-- Witness for C5: raising capacity from 2 to 15 with outstanding 1 and
waiters 8, 1 queued admits both in order (outstanding becomes 10). -/
theorem updateCapacity_spec_witness :
    (0 : Int) ≤ 15 ∧
    (∀ w ∈ (⟨2, 1, [⟨1, 8⟩, ⟨2, 1⟩], 5⟩ : SemState).queue, 0 < w.weight) ∧
    ((updateCapacity 15 ⟨2, 1, [⟨1, 8⟩, ⟨2, 1⟩], 5⟩).1.capacity = 15 ∧
      updateCapacity 15 ⟨2, 1, [⟨1, 8⟩, ⟨2, 1⟩], 5⟩
        = wakeScan { (⟨2, 1, [⟨1, 8⟩, ⟨2, 1⟩], 5⟩ : SemState) with capacity := 15 } ∧
      (⟨2, 1, [⟨1, 8⟩, ⟨2, 1⟩], 5⟩ : SemState).queue
        = (updateCapacity 15 ⟨2, 1, [⟨1, 8⟩, ⟨2, 1⟩], 5⟩).2
          ++ (updateCapacity 15 ⟨2, 1, [⟨1, 8⟩, ⟨2, 1⟩], 5⟩).1.queue ∧
      (updateCapacity 15 ⟨2, 1, [⟨1, 8⟩, ⟨2, 1⟩], 5⟩).1.outstanding
        = (⟨2, 1, [⟨1, 8⟩, ⟨2, 1⟩], 5⟩ : SemState).outstanding
          + sumWeights (updateCapacity 15 ⟨2, 1, [⟨1, 8⟩, ⟨2, 1⟩], 5⟩).2 ∧
      (updateCapacity 15 ⟨2, 1, [⟨1, 8⟩, ⟨2, 1⟩], 5⟩).1.numHadToWait
        = (⟨2, 1, [⟨1, 8⟩, ⟨2, 1⟩], 5⟩ : SemState).numHadToWait ∧
      chainFitsB 15 (⟨2, 1, [⟨1, 8⟩, ⟨2, 1⟩], 5⟩ : SemState).outstanding
        (updateCapacity 15 ⟨2, 1, [⟨1, 8⟩, ⟨2, 1⟩], 5⟩).2 = true ∧
      (∀ w rest, (updateCapacity 15 ⟨2, 1, [⟨1, 8⟩, ⟨2, 1⟩], 5⟩).1.queue = w :: rest →
        ¬((updateCapacity 15 ⟨2, 1, [⟨1, 8⟩, ⟨2, 1⟩], 5⟩).1.outstanding + w.weight ≤ 15)) ∧
      (⟨2, 1, [⟨1, 8⟩, ⟨2, 1⟩], 5⟩ : SemState).outstanding
        ≤ (updateCapacity 15 ⟨2, 1, [⟨1, 8⟩, ⟨2, 1⟩], 5⟩).1.outstanding) :=
  ⟨by decide, by decide,
    updateCapacity_spec 15 ⟨2, 1, [⟨1, 8⟩, ⟨2, 1⟩], 5⟩ (by decide) (by decide)⟩

/-- Grants in a step always come from the front of the queue: the granted
list of any step is an initial segment (take) of the pre-step queue. -/
theorem step_grants_take (e : Event) (s : SemState) :
    ∃ k, (step e s).2 = s.queue.take k := by
  cases e with
  | tryAcq n => exact ⟨0, by simp [step]⟩
  | acq tok id n => exact ⟨0, by simp [step]⟩
  | cancel id => exact ⟨0, by simp [step]⟩
  | rel n =>
    obtain ⟨h1, _, _, _⟩ := wakeScanAux_spec s.capacity s.queue (s.outstanding - n)
    have h1r : s.queue = (release n s).2 ++ (release n s).1.queue := h1
    refine ⟨(release n s).2.length, ?_⟩
    show (release n s).2 = s.queue.take (release n s).2.length
    rw [h1r]
    simp
  | updateCap c =>
    obtain ⟨h1, _, _, _⟩ := wakeScanAux_spec c s.queue s.outstanding
    have h1r : s.queue = (updateCapacity c s).2 ++ (updateCapacity c s).1.queue := h1
    refine ⟨(updateCapacity c s).2.length, ?_⟩
    show (updateCapacity c s).2 = s.queue.take (updateCapacity c s).2.length
    rw [h1r]
    simp

/-- TryAcquire never changes the queue. -/
theorem tryAcquire_queue (n : Int) (s : SemState) : (tryAcquire n s).2.queue = s.queue := by
  by_cases h : s.queue = [] ∧ s.outstanding + n ≤ s.capacity
  · simp [tryAcquire, h]
  · simp [tryAcquire, h]

/-- Any waiter in the post-step queue either was already queued or is the
waiter enqueued by this very step. -/
theorem step_queue_mem (e : Event) (s : SemState) (w : Waiter)
    (hw : w ∈ (step e s).1.queue) :
    w ∈ s.queue ∨ ∃ tok id2 n, e = Event.acq tok id2 n ∧ w = ⟨id2, n⟩ := by
  cases e with
  | tryAcq n =>
    left
    rw [show (step (Event.tryAcq n) s).1.queue = (tryAcquire n s).2.queue from rfl,
      tryAcquire_queue] at hw
    exact hw
  | acq tok id2 n =>
    by_cases h1 : s.queue = [] ∧ s.outstanding + n ≤ s.capacity
    · left
      simp only [step, acquire, if_pos h1] at hw
      exact hw
    · by_cases h2 : tok = true
      · left
        simp only [step, acquire, if_neg h1, h2, if_pos rfl] at hw
        exact hw
      · have h2f : tok = false := by simp at h2; exact h2
        subst h2f
        simp [step, acquire, h1] at hw
        rcases hw with hw | hw
        · exact Or.inl hw
        · exact Or.inr ⟨false, id2, n, rfl, hw⟩
  | cancel id2 =>
    left
    simp only [step, cancelWaiter, List.mem_filter] at hw
    exact hw.1
  | rel n =>
    left
    obtain ⟨h1, _, _, _⟩ := wakeScanAux_spec s.capacity s.queue (s.outstanding - n)
    have h1r : s.queue = (release n s).2 ++ (release n s).1.queue := h1
    rw [h1r]
    exact List.mem_append_right _ hw
  | updateCap c =>
    left
    obtain ⟨h1, _, _, _⟩ := wakeScanAux_spec c s.queue s.outstanding
    have h1r : s.queue = (updateCapacity c s).2 ++ (updateCapacity c s).1.queue := h1
    rw [h1r]
    exact List.mem_append_right _ hw

/-- Every waiter granted by a step was queued before the step. -/
theorem step_grants_mem (e : Event) (s : SemState) (w : Waiter)
    (hw : w ∈ (step e s).2) : w ∈ s.queue := by
  obtain ⟨k, hk⟩ := step_grants_take e s
  rw [hk] at hw
  exact List.take_subset k s.queue hw

/-- An id absent from the queue stays absent across any step that is not an
Acquire entry reusing that id. -/
theorem notin_queue_preserved (e : Event) (s : SemState) (id : Nat)
    (hid : id ∉ idsOf s.queue) (he : ∀ tok n, e ≠ Event.acq tok id n) :
    id ∉ idsOf (step e s).1.queue := by
  intro hmem
  simp only [idsOf, List.mem_map] at hmem
  obtain ⟨w, hw, hwid⟩ := hmem
  rcases step_queue_mem e s w hw with h | ⟨tok, id2, n, he2, hw2⟩
  · exact hid (by simp only [idsOf, List.mem_map]; exact ⟨w, h, hwid⟩)
  · subst he2
    have : id2 = id := by rw [hw2] at hwid; exact hwid
    subst this
    exact he tok n rfl

/-- Once a waiter id is out of the queue, no later step of a trace that never
re-enqueues that id can grant it. -/
theorem cancel_never_granted :
    ∀ (tr : List Event) (s : SemState) (id : Nat), id ∉ idsOf s.queue →
      (∀ tok n, Event.acq tok id n ∉ tr) →
      ∀ g ∈ grantsLog s tr, ∀ w ∈ g, w.id ≠ id := by
  intro tr
  induction tr with
  | nil =>
    intro s id _ _ g hg
    simp [grantsLog] at hg
  | cons e tr ih =>
    intro s id hid htr g hg w hw
    simp only [grantsLog, List.mem_cons] at hg
    rcases hg with hg | hg
    · subst hg
      have hwq : w ∈ s.queue := step_grants_mem e s w hw
      intro hwid
      exact hid (by simp only [idsOf, List.mem_map]; exact ⟨w, hwq, hwid⟩)
    · have hid2 : id ∉ idsOf (step e s).1.queue := by
        apply notin_queue_preserved e s id hid
        intro tok n he
        exact htr tok n (by rw [he]; simp)
      exact ih (step e s).1 id hid2
        (fun tok n hmem => htr tok n (by simp [hmem])) g hg w hw

/-- C4: a cancelled Acquire adds no weight and fully disappears.  If the
token is already signaled at entry and the fast path does not apply, the call
returns the cancellation error and the state is completely unchanged (nothing
enqueued, no weight added, numHadToWait untouched); cancellation of a queued
waiter removes exactly that waiter from its current position, preserves the
relative order of all remaining waiters and changes no counter; and after the
cancellation, a trace that never reuses the id can never grant it — grant and
cancellation are mutually exclusive outcomes for a slow-path Acquire. -/
theorem acquire_cancellation_spec (id : Nat) (n : Int) (s : SemState) (hn : 0 < n) :
    (((acquire true id n s).1 = AcquireResult.errCanceled ↔
        ¬(s.queue = [] ∧ s.outstanding + n ≤ s.capacity)) ∧
      ((acquire true id n s).1 = AcquireResult.errCanceled →
        (acquire true id n s).2 = s) ∧
      (acquire true id n s).1 ≠ AcquireResult.enqueued) ∧
    ((cancelWaiter id s).outstanding = s.outstanding ∧
      (cancelWaiter id s).capacity = s.capacity ∧
      (cancelWaiter id s).numHadToWait = s.numHadToWait ∧
      (cancelWaiter id s).queue = s.queue.filter (fun w => w.id != id) ∧
      (∀ w ∈ (cancelWaiter id s).queue, w.id ≠ id) ∧
      (∀ l : List Waiter, l.Sublist s.queue → (∀ w ∈ l, w.id ≠ id) →
        l.Sublist (cancelWaiter id s).queue)) ∧
    (∀ tr : List Event, (∀ tok m, Event.acq tok id m ∉ tr) →
      ∀ g ∈ grantsLog (cancelWaiter id s) tr, ∀ w ∈ g, w.id ≠ id) := by
  refine ⟨?_, ?_, ?_⟩
  · by_cases h : s.queue = [] ∧ s.outstanding + n ≤ s.capacity
    · simp [acquire, h]
    · simp [acquire, h]
  · refine ⟨rfl, rfl, rfl, rfl, ?_, ?_⟩
    · intro w hw
      simp only [cancelWaiter, List.mem_filter, bne_iff_ne, ne_eq] at hw
      exact hw.2
    · intro l hl hall
      have hfilter : l.filter (fun w => w.id != id) = l := by
        apply List.filter_eq_self.mpr
        intro w hw
        simp only [bne_iff_ne, ne_eq, decide_eq_true_eq]
        exact hall w hw
      have := List.Sublist.filter (fun w => w.id != id) hl
      rw [hfilter] at this
      exact this
  · intro tr htr
    apply cancel_never_granted tr (cancelWaiter id s) id
    · intro hmem
      simp only [idsOf, cancelWaiter, List.mem_map] at hmem
      obtain ⟨w, hw, hwid⟩ := hmem
      simp only [List.mem_filter, bne_iff_ne, ne_eq, decide_eq_true_eq] at hw
      exact hw.2 hwid
    · exact htr

/-- Witness for C4 at a state with interior waiter id 2: capacity 1,
outstanding 1, queue ids 7, 2, 9. -/
theorem acquire_cancellation_spec_witness :
    (0 : Int) < 1 ∧
    ((((acquire true 2 1 (⟨1, 1, [⟨7, 1⟩, ⟨2, 1⟩, ⟨9, 3⟩], 4⟩ : SemState)).1
          = AcquireResult.errCanceled ↔
        ¬((⟨1, 1, [⟨7, 1⟩, ⟨2, 1⟩, ⟨9, 3⟩], 4⟩ : SemState).queue = [] ∧
          (⟨1, 1, [⟨7, 1⟩, ⟨2, 1⟩, ⟨9, 3⟩], 4⟩ : SemState).outstanding + 1
            ≤ (⟨1, 1, [⟨7, 1⟩, ⟨2, 1⟩, ⟨9, 3⟩], 4⟩ : SemState).capacity)) ∧
      ((acquire true 2 1 (⟨1, 1, [⟨7, 1⟩, ⟨2, 1⟩, ⟨9, 3⟩], 4⟩ : SemState)).1
          = AcquireResult.errCanceled →
        (acquire true 2 1 (⟨1, 1, [⟨7, 1⟩, ⟨2, 1⟩, ⟨9, 3⟩], 4⟩ : SemState)).2
          = (⟨1, 1, [⟨7, 1⟩, ⟨2, 1⟩, ⟨9, 3⟩], 4⟩ : SemState)) ∧
      (acquire true 2 1 (⟨1, 1, [⟨7, 1⟩, ⟨2, 1⟩, ⟨9, 3⟩], 4⟩ : SemState)).1
        ≠ AcquireResult.enqueued) ∧
    ((cancelWaiter 2 (⟨1, 1, [⟨7, 1⟩, ⟨2, 1⟩, ⟨9, 3⟩], 4⟩ : SemState)).outstanding
        = (⟨1, 1, [⟨7, 1⟩, ⟨2, 1⟩, ⟨9, 3⟩], 4⟩ : SemState).outstanding ∧
      (cancelWaiter 2 (⟨1, 1, [⟨7, 1⟩, ⟨2, 1⟩, ⟨9, 3⟩], 4⟩ : SemState)).capacity
        = (⟨1, 1, [⟨7, 1⟩, ⟨2, 1⟩, ⟨9, 3⟩], 4⟩ : SemState).capacity ∧
      (cancelWaiter 2 (⟨1, 1, [⟨7, 1⟩, ⟨2, 1⟩, ⟨9, 3⟩], 4⟩ : SemState)).numHadToWait
        = (⟨1, 1, [⟨7, 1⟩, ⟨2, 1⟩, ⟨9, 3⟩], 4⟩ : SemState).numHadToWait ∧
      (cancelWaiter 2 (⟨1, 1, [⟨7, 1⟩, ⟨2, 1⟩, ⟨9, 3⟩], 4⟩ : SemState)).queue
        = (⟨1, 1, [⟨7, 1⟩, ⟨2, 1⟩, ⟨9, 3⟩], 4⟩ : SemState).queue.filter
            (fun w => w.id != 2) ∧
      (∀ w ∈ (cancelWaiter 2 (⟨1, 1, [⟨7, 1⟩, ⟨2, 1⟩, ⟨9, 3⟩], 4⟩ : SemState)).queue,
        w.id ≠ 2) ∧
      (∀ l : List Waiter,
        l.Sublist (⟨1, 1, [⟨7, 1⟩, ⟨2, 1⟩, ⟨9, 3⟩], 4⟩ : SemState).queue →
        (∀ w ∈ l, w.id ≠ 2) →
        l.Sublist (cancelWaiter 2 (⟨1, 1, [⟨7, 1⟩, ⟨2, 1⟩, ⟨9, 3⟩], 4⟩ : SemState)).queue)) ∧
    (∀ tr : List Event, (∀ tok m, Event.acq tok 2 m ∉ tr) →
      ∀ g ∈ grantsLog (cancelWaiter 2 (⟨1, 1, [⟨7, 1⟩, ⟨2, 1⟩, ⟨9, 3⟩], 4⟩ : SemState)) tr,
        ∀ w ∈ g, w.id ≠ 2)) :=
  ⟨by decide, acquire_cancellation_spec 2 1 ⟨1, 1, [⟨7, 1⟩, ⟨2, 1⟩, ⟨9, 3⟩], 4⟩ (by decide)⟩

/-- A list of positive integers has nonnegative sum. -/
theorem heldSum_nonneg : ∀ l : List Int, (∀ x ∈ l, 0 < x) → 0 ≤ l.sum := by
  intro l
  induction l with
  | nil => simp
  | cons x rest ih =>
    intro h
    have hx := h x (by simp)
    have hr := ih (fun y hy => h y (by simp [hy]))
    simp only [List.sum_cons]
    omega

/-- Erasing a present element removes exactly its value from the sum. -/
theorem sum_erase_of_mem (n : Int) (l : List Int) (h : n ∈ l) :
    (l.erase n).sum = l.sum - n := by
  have hperm := List.perm_cons_erase h
  have := hperm.sum_eq
  simp only [List.sum_cons] at this
  omega

/-- Queued weights stay positive across a step with a positive weight. -/
theorem step_queue_pos (e : Event) (s : SemState)
    (hqpos : ∀ w ∈ s.queue, 0 < w.weight) (hepos : eventPosB e = true) :
    ∀ w ∈ (step e s).1.queue, 0 < w.weight := by
  intro w hw
  rcases step_queue_mem e s w hw with h | ⟨tok, id2, n, he2, hw2⟩
  · exact hqpos w h
  · subst he2
    rw [hw2]
    simp only [eventPosB, decide_eq_true_eq] at hepos
    exact hepos

/-- One step keeps outstanding equal to the sum of the grant ledger. -/
theorem stepHeld_sum (e : Event) (held : List Int) (s : SemState)
    (hsum : s.outstanding = held.sum)
    (hrel : ∀ n, e = Event.rel n → n ∈ held) :
    (step e s).1.outstanding = (stepHeld e held s).sum := by
  cases e with
  | tryAcq n =>
    by_cases h : s.queue = [] ∧ s.outstanding + n ≤ s.capacity
    · have heq : tryAcquire n s = (true, { s with outstanding := s.outstanding + n }) := by
        simp [tryAcquire, h]
      simp [step, stepHeld, grantedWeights, heq, hsum]
    · have heq : tryAcquire n s = (false, s) := by
        simp [tryAcquire, h]
      simp [step, stepHeld, grantedWeights, heq, hsum]
  | acq tok id n =>
    by_cases h : s.queue = [] ∧ s.outstanding + n ≤ s.capacity
    · have heq : acquire tok id n s
          = (AcquireResult.fastGranted, { s with outstanding := s.outstanding + n }) := by
        simp [acquire, h]
      simp [step, stepHeld, grantedWeights, heq, hsum]
    · cases tok with
      | true =>
        have heq : acquire true id n s = (AcquireResult.errCanceled, s) := by
          simp [acquire, h]
        simp [step, stepHeld, grantedWeights, heq, hsum]
      | false =>
        have heq : acquire false id n s
            = (AcquireResult.enqueued,
                { s with queue := s.queue ++ [⟨id, n⟩],
                         numHadToWait := s.numHadToWait + 1 }) := by
          simp [acquire, h]
        simp [step, stepHeld, grantedWeights, heq, hsum]
  | cancel id =>
    simp [step, stepHeld, grantedWeights, step, cancelWaiter, hsum]
  | rel n =>
    have hmem := hrel n rfl
    have herase := sum_erase_of_mem n held hmem
    obtain ⟨_, h2, _, _⟩ := wakeScanAux_spec s.capacity s.queue (s.outstanding - n)
    have h2r : (release n s).1.outstanding
        = s.outstanding - n + sumWeights (release n s).2 := h2
    show (release n s).1.outstanding = _
    rw [h2r, hsum]
    simp only [stepHeld, grantedWeights, step, List.sum_append, sumWeights]
    omega
  | updateCap c =>
    obtain ⟨_, h2, _, _⟩ := wakeScanAux_spec c s.queue s.outstanding
    have h2r : (updateCapacity c s).1.outstanding
        = s.outstanding + sumWeights (updateCapacity c s).2 := h2
    show (updateCapacity c s).1.outstanding = _
    rw [h2r, hsum]
    simp only [stepHeld, grantedWeights, step, List.sum_append, sumWeights]

/-- One step keeps every ledger entry positive. -/
theorem stepHeld_pos (e : Event) (held : List Int) (s : SemState)
    (hpos : ∀ x ∈ held, 0 < x)
    (hqpos : ∀ w ∈ s.queue, 0 < w.weight)
    (hepos : eventPosB e = true) :
    ∀ x ∈ stepHeld e held s, 0 < x := by
  intro x hx
  cases e with
  | tryAcq n =>
    simp only [eventPosB, decide_eq_true_eq] at hepos
    by_cases h : s.queue = [] ∧ s.outstanding + n ≤ s.capacity
    · simp [stepHeld, grantedWeights, tryAcquire, h] at hx
      rcases hx with hx | hx
      · exact hpos x hx
      · omega
    · simp [stepHeld, grantedWeights, tryAcquire, h] at hx
      exact hpos x hx
  | acq tok id n =>
    simp only [eventPosB, decide_eq_true_eq] at hepos
    by_cases h : s.queue = [] ∧ s.outstanding + n ≤ s.capacity
    · simp [stepHeld, grantedWeights, acquire, h] at hx
      rcases hx with hx | hx
      · exact hpos x hx
      · omega
    · cases tok with
      | true =>
        simp [stepHeld, grantedWeights, acquire, h] at hx
        exact hpos x hx
      | false =>
        simp [stepHeld, grantedWeights, acquire, h] at hx
        exact hpos x hx
  | cancel id =>
    simp [stepHeld, grantedWeights, step] at hx
    exact hpos x hx
  | rel n =>
    simp only [stepHeld, grantedWeights, step, List.mem_append] at hx
    rcases hx with hx | hx
    · exact hpos x (List.mem_of_mem_erase hx)
    · simp only [List.mem_map] at hx
      obtain ⟨w, hw, hwx⟩ := hx
      have : w ∈ s.queue := step_grants_mem (Event.rel n) s w hw
      rw [← hwx]
      exact hqpos w this
  | updateCap c =>
    simp only [stepHeld, grantedWeights, step, List.mem_append] at hx
    rcases hx with hx | hx
    · exact hpos x hx
    · simp only [List.mem_map] at hx
      obtain ⟨w, hw, hwx⟩ := hx
      have : w ∈ s.queue := step_grants_mem (Event.updateCap c) s w hw
      rw [← hwx]
      exact hqpos w this

/-- Along any positive-weight trace following the matched-release protocol,
outstanding stays the ledger sum, hence nonnegative at every prefix. -/
theorem validRelease_nonneg :
    ∀ (tr : List Event) (held : List Int) (s : SemState),
      s.outstanding = held.sum → (∀ x ∈ held, 0 < x) →
      (∀ w ∈ s.queue, 0 < w.weight) →
      (∀ e ∈ tr, eventPosB e = true) → validReleaseB held s tr = true →
      ∀ tr2, tr2 <+: tr → 0 ≤ (exec s tr2).outstanding := by
  intro tr
  induction tr with
  | nil =>
    intro held s hsum hpos _ _ _ tr2 htr2
    rw [List.prefix_nil.mp htr2]
    rw [show exec s [] = s from rfl, hsum]
    exact heldSum_nonneg held hpos
  | cons e tr ih =>
    intro held s hsum hpos hqpos hepos hvalid tr2 htr2
    have hepose : eventPosB e = true := hepos e (by simp)
    simp only [validReleaseB, Bool.and_eq_true] at hvalid
    obtain ⟨hcond, hrest⟩ := hvalid
    have hrel : ∀ n, e = Event.rel n → n ∈ held := by
      intro n he
      subst he
      simpa using hcond
    have hsum2 := stepHeld_sum e held s hsum hrel
    have hpos2 := stepHeld_pos e held s hpos hqpos hepose
    have hqpos2 := step_queue_pos e s hqpos hepose
    cases tr2 with
    | nil =>
      rw [show exec s [] = s from rfl, hsum]
      exact heldSum_nonneg held hpos
    | cons e2 tr2 =>
      obtain ⟨he2, htr2b⟩ := List.cons_prefix_cons.mp htr2
      rw [he2]
      rw [show exec s (e :: tr2) = exec (step e s).1 tr2 from rfl]
      exact ih (stepHeld e held s) (step e s).1 hsum2 hpos2 hqpos2
        (fun e3 he3 => hepos e3 (by simp [he3])) hrest tr2 htr2b

/-- The wake scan never pushes outstanding above capacity if it starts at or
below it. -/
theorem scan_le_cap (cap : Int) :
    ∀ (q : List Waiter) (out : Int), out ≤ cap → (wakeScanAux cap out q).1 ≤ cap := by
  intro q
  induction q with
  | nil => intro out h; simpa [wakeScanAux] using h
  | cons w rest ih =>
    intro out h
    by_cases hw : out + w.weight ≤ cap
    · have := ih (out + w.weight) hw
      simpa [wakeScanAux, hw] using this
    · simpa [wakeScanAux, hw] using h

/-- Every step except a capacity shrink below outstanding preserves
outstanding ≤ capacity. -/
theorem step_le_cap (e : Event) (s : SemState)
    (hepos : eventPosB e = true)
    (hle : s.outstanding ≤ s.capacity)
    (hcap : ∀ c, e = Event.updateCap c → s.outstanding ≤ c) :
    (step e s).1.outstanding ≤ (step e s).1.capacity := by
  cases e with
  | tryAcq n =>
    by_cases h : s.queue = [] ∧ s.outstanding + n ≤ s.capacity
    · have heq : tryAcquire n s = (true, { s with outstanding := s.outstanding + n }) := by
        simp [tryAcquire, h]
      simp only [step, heq]
      exact h.2
    · have heq : tryAcquire n s = (false, s) := by
        simp [tryAcquire, h]
      simp only [step, heq]
      exact hle
  | acq tok id n =>
    by_cases h : s.queue = [] ∧ s.outstanding + n ≤ s.capacity
    · have heq : acquire tok id n s
          = (AcquireResult.fastGranted, { s with outstanding := s.outstanding + n }) := by
        simp [acquire, h]
      simp only [step, heq]
      exact h.2
    · cases tok with
      | true =>
        have heq : acquire true id n s = (AcquireResult.errCanceled, s) := by
          simp [acquire, h]
        simp only [step, heq]
        exact hle
      | false =>
        have heq : acquire false id n s
            = (AcquireResult.enqueued,
                { s with queue := s.queue ++ [⟨id, n⟩],
                         numHadToWait := s.numHadToWait + 1 }) := by
          simp [acquire, h]
        simp only [step, heq]
        exact hle
  | cancel id => exact hle
  | rel n =>
    simp only [eventPosB, decide_eq_true_eq] at hepos
    have hstart : s.outstanding - n ≤ s.capacity := by omega
    exact scan_le_cap s.capacity s.queue (s.outstanding - n) hstart
  | updateCap c =>
    have hstart : s.outstanding ≤ c := hcap c rfl
    exact scan_le_cap c s.queue s.outstanding hstart

/-- C6 counterexample: the claim quantifies over every interleaving of
TryAcquire/Acquire/Release with positive weights, but a Release of weight 5
on a fresh semaphore (a release not matching any prior acquisition — the
semaphore does not verify this) drives outstanding to -5 < 0. -/
theorem outstanding_nonneg_counterexample :
    eventPosB (Event.rel 5) = true ∧
    (exec (newSemaphore 10) [Event.rel 5]).outstanding = -5 ∧
    ¬(0 ≤ (exec (newSemaphore 10) [Event.rel 5]).outstanding) := by
  refine ⟨?_, ?_, ?_⟩ <;> decide

/-- C6 (amended): starting from NewSemaphore(cap) with cap ≥ 0, under every
interleaving of positive-weight operations in which each Release(n) releases
a weight n granted earlier and not yet released (the matched-release
protocol), outstanding is ≥ 0 after every prefix; and every individual step
other than an UpdateCapacity below the current outstanding preserves
outstanding ≤ capacity — so outstanding can exceed capacity only in the
interval following a capacity-decreasing UpdateCapacity. -/
theorem outstanding_bounds (cap : Int) (tr : List Event) (hcap : 0 ≤ cap)
    (hpos : ∀ e ∈ tr, eventPosB e = true)
    (hvalid : validReleaseB [] (newSemaphore cap) tr = true) :
    (∀ tr2, tr2 <+: tr → 0 ≤ (exec (newSemaphore cap) tr2).outstanding) ∧
    (∀ (s : SemState) (e : Event), eventPosB e = true →
      s.outstanding ≤ s.capacity →
      (∀ c, e = Event.updateCap c → s.outstanding ≤ c) →
      (step e s).1.outstanding ≤ (step e s).1.capacity) := by
  constructor
  · exact validRelease_nonneg tr [] (newSemaphore cap) (by simp [newSemaphore])
      (by simp) (by simp [newSemaphore]) hpos hvalid
  · intro s e h1 h2 h3
    exact step_le_cap e s h1 h2 h3

/-- Witness for C6: capacity 10, trace TryAcquire(5); Release(5);
UpdateCapacity(3), which follows the matched-release protocol. -/
theorem outstanding_bounds_witness :
    (0 : Int) ≤ 10 ∧
    (∀ e ∈ [Event.tryAcq 5, Event.rel 5, Event.updateCap 3], eventPosB e = true) ∧
    validReleaseB [] (newSemaphore 10) [Event.tryAcq 5, Event.rel 5, Event.updateCap 3]
      = true ∧
    ((∀ tr2, tr2 <+: [Event.tryAcq 5, Event.rel 5, Event.updateCap 3] →
        0 ≤ (exec (newSemaphore 10) tr2).outstanding) ∧
      (∀ (s : SemState) (e : Event), eventPosB e = true →
        s.outstanding ≤ s.capacity →
        (∀ c, e = Event.updateCap c → s.outstanding ≤ c) →
        (step e s).1.outstanding ≤ (step e s).1.capacity)) :=
  ⟨by decide, by decide, by decide,
    outstanding_bounds 10 [Event.tryAcq 5, Event.rel 5, Event.updateCap 3]
      (by decide) (by decide) (by decide)⟩

/-- Structural effect of one step on the queue: the granted waiters are an
initial segment of length k, and the queue either loses exactly that segment,
or gains one waiter at the tail (an Acquire enqueue, granting nobody), or is
filtered by id (a cancellation, granting nobody). -/
theorem step_shape (e : Event) (s : SemState) :
    ∃ k, (step e s).2 = s.queue.take k ∧
      ((step e s).1.queue = s.queue.drop k ∨
        (∃ tok id2 n, e = Event.acq tok id2 n ∧
          (step e s).1.queue = s.queue ++ [⟨id2, n⟩] ∧ (step e s).2 = []) ∨
        (∃ id2, e = Event.cancel id2 ∧
          (step e s).1.queue = s.queue.filter (fun w => w.id != id2) ∧
          (step e s).2 = [])) := by
  cases e with
  | tryAcq n =>
    refine ⟨0, by simp [step], Or.inl ?_⟩
    rw [show (step (Event.tryAcq n) s).1.queue = (tryAcquire n s).2.queue from rfl,
      tryAcquire_queue]
    simp
  | acq tok id n =>
    by_cases h : s.queue = [] ∧ s.outstanding + n ≤ s.capacity
    · have heq : acquire tok id n s
          = (AcquireResult.fastGranted, { s with outstanding := s.outstanding + n }) := by
        simp [acquire, h]
      exact ⟨0, by simp [step], Or.inl (by simp [step, heq])⟩
    · cases tok with
      | true =>
        have heq : acquire true id n s = (AcquireResult.errCanceled, s) := by
          simp [acquire, h]
        exact ⟨0, by simp [step], Or.inl (by simp [step, heq])⟩
      | false =>
        have heq : acquire false id n s
            = (AcquireResult.enqueued,
                { s with queue := s.queue ++ [⟨id, n⟩],
                         numHadToWait := s.numHadToWait + 1 }) := by
          simp [acquire, h]
        exact ⟨0, by simp [step], Or.inr (Or.inl
          ⟨false, id, n, rfl, by simp [step, heq], by simp [step]⟩)⟩
  | cancel id =>
    exact ⟨0, by simp [step], Or.inr (Or.inr ⟨id, rfl, by simp [step, cancelWaiter], by
      simp [step]⟩)⟩
  | rel n =>
    obtain ⟨h1, _, _, _⟩ := wakeScanAux_spec s.capacity s.queue (s.outstanding - n)
    have h1r : s.queue = (release n s).2 ++ (release n s).1.queue := h1
    refine ⟨(release n s).2.length, ?_, Or.inl ?_⟩
    · show (release n s).2 = _
      rw [h1r, List.take_left]
    · show (release n s).1.queue = _
      rw [h1r, List.drop_left]
  | updateCap c =>
    obtain ⟨h1, _, _, _⟩ := wakeScanAux_spec c s.queue s.outstanding
    have h1r : s.queue = (updateCapacity c s).2 ++ (updateCapacity c s).1.queue := h1
    refine ⟨(updateCapacity c s).2.length, ?_, Or.inl ?_⟩
    · show (updateCapacity c s).2 = _
      rw [h1r, List.take_left]
    · show (updateCapacity c s).1.queue = _
      rw [h1r, List.drop_left]

/-- A two-element sublist of an append whose first element avoids the left
part lies entirely in the right part. -/
theorem pair_sublist_right (A B : Nat) :
    ∀ (l1 l2 : List Nat), [A, B].Sublist (l1 ++ l2) → A ∉ l1 → [A, B].Sublist l2 := by
  intro l1
  induction l1 with
  | nil => intro l2 h _; simpa using h
  | cons x rest ih =>
    intro l2 h hA
    simp only [List.cons_append] at h
    cases h with
    | cons _ htail => exact ih l2 htail (fun hmem => hA (by simp [hmem]))
    | cons₂ _ htail =>
      exfalso
      exact hA (by simp)

/-- Mapping ids commutes with filtering by id. -/
theorem idsOf_filter (c : Nat) :
    ∀ l : List Waiter, idsOf (l.filter (fun w => w.id != c))
      = (idsOf l).filter (fun x => x != c) := by
  intro l
  induction l with
  | nil => simp [idsOf]
  | cons w rest ih =>
    by_cases h : w.id = c
    · simp [idsOf, List.filter_cons, h] at ih ⊢
      exact ih
    · simp only [idsOf, List.map_cons, List.filter_cons] at ih ⊢
      simp [h, ih]

/-- Core FIFO fairness induction: if A sits ahead of B in the queue, B's id
occurs at most once in it, and the trace never cancels or re-enqueues A or B,
then whenever B is granted at step t, A is granted at some step t2 ≤ t. -/
theorem fairness_main :
    ∀ (tr : List Event) (s : SemState) (A B : Nat),
      [A, B].Sublist (idsOf s.queue) →
      (idsOf s.queue).count B ≤ 1 →
      Event.cancel A ∉ tr → Event.cancel B ∉ tr →
      (∀ tok n, Event.acq tok A n ∉ tr) → (∀ tok n, Event.acq tok B n ∉ tr) →
      ∀ t, ∀ ht : t < (grantsLog s tr).length, B ∈ idsOf ((grantsLog s tr)[t]) →
        ∃ t2, ∃ ht2 : t2 < (grantsLog s tr).length, t2 ≤ t ∧
          A ∈ idsOf ((grantsLog s tr)[t2]) := by
  intro tr
  induction tr with
  | nil =>
    intro s A B _ _ _ _ _ _ t ht
    simp [grantsLog] at ht
  | cons e tr ih =>
    intro s A B hAB hcnt hcA hcB haA haB
    have hlog : grantsLog s (e :: tr) = (step e s).2 :: grantsLog (step e s).1 tr := rfl
    by_cases hA : A ∈ idsOf ((step e s).2)
    · intro t ht hB
      refine ⟨0, ?_, Nat.zero_le t, ?_⟩
      · simp only [hlog]
        simp
      · simp only [hlog]
        simpa using hA
    · obtain ⟨k, hgk, hshape⟩ := step_shape e s
      have hmaps : idsOf ((step e s).2) = (idsOf s.queue).take k := by
        rw [hgk, idsOf, List.map_take]
        rfl
      have hkey : [A, B].Sublist (idsOf (step e s).1.queue) ∧
          (idsOf (step e s).1.queue).count B ≤ 1 ∧
          B ∉ idsOf ((step e s).2) := by
        rcases hshape with hdrop | ⟨tok, id2, n, he, hq2, hg0⟩ | ⟨id2, he, hq2, hg0⟩
        · have hqids : idsOf (step e s).1.queue = (idsOf s.queue).drop k := by
            rw [hdrop, idsOf, List.map_drop]
            rfl
          have hsplit : (idsOf s.queue).take k ++ (idsOf s.queue).drop k = idsOf s.queue :=
            List.take_append_drop k (idsOf s.queue)
          have hAnotk : A ∉ (idsOf s.queue).take k := by
            rw [← hmaps]
            exact hA
          have hABdrop : [A, B].Sublist ((idsOf s.queue).drop k) := by
            apply pair_sublist_right A B ((idsOf s.queue).take k) ((idsOf s.queue).drop k)
            · rw [hsplit]
              exact hAB
            · exact hAnotk
          have hBdrop : B ∈ (idsOf s.queue).drop k := by
            have : B ∈ [A, B] := by simp
            exact hABdrop.mem this
          have hBnotk : B ∉ (idsOf s.queue).take k := by
            intro hBk
            have h1 : 1 ≤ ((idsOf s.queue).take k).count B := List.one_le_count_iff.mpr hBk
            have h2 : 1 ≤ ((idsOf s.queue).drop k).count B := List.one_le_count_iff.mpr hBdrop
            have h3 : (idsOf s.queue).count B
                = ((idsOf s.queue).take k).count B + ((idsOf s.queue).drop k).count B := by
              rw [← hsplit, List.count_append]
              simp [hsplit]
            omega
          refine ⟨by rw [hqids]; exact hABdrop, ?_, by rw [hmaps]; exact hBnotk⟩
          rw [hqids]
          calc ((idsOf s.queue).drop k).count B
              ≤ (idsOf s.queue).count B := (List.drop_sublist k _).count_le B
            _ ≤ 1 := hcnt
        · have hAne : id2 ≠ A := by
            intro hid
            exact haA tok n (by rw [he, hid]; simp)
          have hBne : id2 ≠ B := by
            intro hid
            exact haB tok n (by rw [he, hid]; simp)
          have hqids : idsOf (step e s).1.queue = idsOf s.queue ++ [id2] := by
            rw [hq2, idsOf, List.map_append]
            rfl
          refine ⟨?_, ?_, by rw [hg0]; simp [idsOf]⟩
          · rw [hqids]
            exact hAB.trans (List.sublist_append_left _ _)
          · rw [hqids, List.count_append]
            have : ([id2] : List Nat).count B = 0 := by
              simp [List.count_singleton]
              omega
            omega
        · have hAne : id2 ≠ A := by
            intro hid
            exact hcA (by rw [he, hid]; simp)
          have hBne : id2 ≠ B := by
            intro hid
            exact hcB (by rw [he, hid]; simp)
          have hqids : idsOf (step e s).1.queue
              = (idsOf s.queue).filter (fun x => x != id2) := by
            rw [hq2, idsOf_filter]
          refine ⟨?_, ?_, by rw [hg0]; simp [idsOf]⟩
          · rw [hqids]
            have hfilter : ([A, B] : List Nat).filter (fun x => x != id2) = [A, B] := by
              simp only [List.filter_cons, List.filter_nil]
              simp [bne_iff_ne, Ne.symm hAne, Ne.symm hBne]
            rw [← hfilter]
            exact hAB.filter _
          · rw [hqids]
            calc ((idsOf s.queue).filter (fun x => x != id2)).count B
                ≤ (idsOf s.queue).count B := (List.filter_sublist _).count_le B
              _ ≤ 1 := hcnt
      obtain ⟨hAB2, hcnt2, hBg0⟩ := hkey
      intro t ht hB
      cases t with
      | zero =>
        exfalso
        simp only [hlog, List.getElem_cons_zero] at hB
        exact hBg0 hB
      | succ t0 =>
        have hlen : t0 < (grantsLog (step e s).1 tr).length := by
          simp only [hlog] at ht
          simpa using ht
        have hBmem : B ∈ idsOf ((grantsLog (step e s).1 tr)[t0]) := by
          simp only [hlog, List.getElem_cons_succ] at hB
          exact hB
        obtain ⟨t2, ht2, hle, hmem⟩ := ih (step e s).1 A B hAB2 hcnt2
          (fun h => hcA (by simp [h])) (fun h => hcB (by simp [h]))
          (fun tok n h => haA tok n (by simp [h]))
          (fun tok n h => haB tok n (by simp [h]))
          t0 hlen hBmem
        refine ⟨t2 + 1, ?_, by omega, ?_⟩
        · simp only [hlog]
          simpa using ht2
        · simp only [hlog, List.getElem_cons_succ]
          exact hmem

/-- A grants log has one entry per trace event. -/
theorem grantsLog_length : ∀ (tr : List Event) (s : SemState),
    (grantsLog s tr).length = tr.length := by
  intro tr
  induction tr with
  | nil => intro s; rfl
  | cons e tr ih => intro s; simp [grantsLog, ih]

/-- Executing a concatenated trace is executing the parts in order. -/
theorem exec_append : ∀ (tr1 tr2 : List Event) (s : SemState),
    exec s (tr1 ++ tr2) = exec (exec s tr1) tr2 := by
  intro tr1
  induction tr1 with
  | nil => intro tr2 s; rfl
  | cons e tr1 ih => intro tr2 s; simp only [List.cons_append]; exact ih tr2 (step e s).1

/-- The grants log of a concatenated trace splits at the junction state. -/
theorem grantsLog_append : ∀ (tr1 tr2 : List Event) (s : SemState),
    grantsLog s (tr1 ++ tr2) = grantsLog s tr1 ++ grantsLog (exec s tr1) tr2 := by
  intro tr1
  induction tr1 with
  | nil => intro tr2 s; rfl
  | cons e tr1 ih =>
    intro tr2 s
    have hu : grantsLog s ((e :: tr1) ++ tr2)
        = (step e s).2 :: grantsLog (step e s).1 (tr1 ++ tr2) := rfl
    rw [hu, ih tr2 (step e s).1]
    rfl

/-- An Acquire entry that reports `enqueued` appended exactly one waiter with
the given id and weight at the tail. -/
theorem acquire_enqueued_queue (tok : Bool) (id : Nat) (n : Int) (s : SemState)
    (h : (acquire tok id n s).1 = AcquireResult.enqueued) :
    (acquire tok id n s).2.queue = s.queue ++ [⟨id, n⟩] := by
  by_cases hfast : s.queue = [] ∧ s.outstanding + n ≤ s.capacity
  · exfalso
    simp [acquire, hfast] at h
  · cases tok with
    | true =>
      exfalso
      simp [acquire, hfast] at h
    | false => simp [acquire, hfast]

/-- A queued waiter either is still queued after a cancel-free trace or was
granted at some step of it. -/
theorem in_queue_or_granted :
    ∀ (tr : List Event) (s : SemState) (A : Nat),
      A ∈ idsOf s.queue → Event.cancel A ∉ tr →
      A ∈ idsOf (exec s tr).queue ∨
        ∃ t, ∃ ht : t < (grantsLog s tr).length, A ∈ idsOf ((grantsLog s tr)[t]) := by
  intro tr
  induction tr with
  | nil => intro s A hA _; exact Or.inl hA
  | cons e tr ih =>
    intro s A hA hcA
    have hlog : grantsLog s (e :: tr) = (step e s).2 :: grantsLog (step e s).1 tr := rfl
    by_cases hAg : A ∈ idsOf ((step e s).2)
    · refine Or.inr ⟨0, ?_, ?_⟩
      · simp [hlog]
      · simp only [hlog, List.getElem_cons_zero]
        exact hAg
    · have hA2 : A ∈ idsOf (step e s).1.queue := by
        obtain ⟨k, hgk, hshape⟩ := step_shape e s
        have hmaps : idsOf ((step e s).2) = (idsOf s.queue).take k := by
          rw [hgk, idsOf, List.map_take]
          rfl
        rcases hshape with hdrop | ⟨tok, id2, n, he, hq2, hg0⟩ | ⟨id2, he, hq2, hg0⟩
        · have hqids : idsOf (step e s).1.queue = (idsOf s.queue).drop k := by
            rw [hdrop, idsOf, List.map_drop]
            rfl
          have hsplit : (idsOf s.queue).take k ++ (idsOf s.queue).drop k = idsOf s.queue :=
            List.take_append_drop k (idsOf s.queue)
          rw [hqids]
          rcases List.mem_append.mp (by rw [hsplit]; exact hA) with h | h
          · exact absurd (by rw [hmaps]; exact h) hAg
          · exact h
        · rw [hq2, idsOf, List.map_append, List.mem_append]
          exact Or.inl hA
        · have hid2 : id2 ≠ A := by
            intro hid
            exact hcA (by rw [he, hid]; simp)
          rw [hq2, idsOf_filter, List.mem_filter]
          refine ⟨hA, by simp [bne_iff_ne]; exact fun h => hid2 h.symm⟩
      rcases ih (step e s).1 A hA2 (fun h => hcA (by simp [h])) with h | ⟨t, ht, hmem⟩
      · left
        exact h
      · refine Or.inr ⟨t + 1, ?_, ?_⟩
        · simp only [hlog]
          simpa using ht
        · simp only [hlog, List.getElem_cons_succ]
          exact hmem

/-- An id that is not queued and never enqueued stays unqueued and is never
granted along the trace. -/
theorem fresh_stays_out :
    ∀ (tr : List Event) (s : SemState) (B : Nat),
      B ∉ idsOf s.queue → (∀ tok n, Event.acq tok B n ∉ tr) →
      B ∉ idsOf (exec s tr).queue ∧
        ∀ t, ∀ ht : t < (grantsLog s tr).length, B ∉ idsOf ((grantsLog s tr)[t]) := by
  intro tr
  induction tr with
  | nil =>
    intro s B hB _
    refine ⟨hB, ?_⟩
    intro t ht
    simp [grantsLog] at ht
  | cons e tr ih =>
    intro s B hB hacq
    have hlog : grantsLog s (e :: tr) = (step e s).2 :: grantsLog (step e s).1 tr := rfl
    have hBg : B ∉ idsOf ((step e s).2) := by
      intro hmem
      simp only [idsOf, List.mem_map] at hmem
      obtain ⟨w, hw, hwid⟩ := hmem
      exact hB (by
        simp only [idsOf, List.mem_map]
        exact ⟨w, step_grants_mem e s w hw, hwid⟩)
    have hB2 : B ∉ idsOf (step e s).1.queue := by
      apply notin_queue_preserved e s B hB
      intro tok n he
      exact hacq tok n (by rw [he]; simp)
    obtain ⟨hq, hg⟩ := ih (step e s).1 B hB2 (fun tok n h => hacq tok n (by simp [h]))
    refine ⟨hq, ?_⟩
    intro t ht
    cases t with
    | zero =>
      simp only [hlog, List.getElem_cons_zero]
      exact hBg
    | succ t0 =>
      have : t0 < (grantsLog (step e s).1 tr).length := by
        simp only [hlog] at ht
        simpa using ht
      simp only [hlog, List.getElem_cons_succ]
      exact hg t0 this

/-- Position of an element of the right part of an append-around-a-cons. -/
theorem getElem_append_cons_cases {γ : Type} :
    ∀ (l1 : List γ) (x : γ) (l2 : List γ) (t : Nat) (ht : t < (l1 ++ x :: l2).length),
    (∃ h : t < l1.length, (l1 ++ x :: l2)[t] = l1[t]) ∨
    (t = l1.length ∧ (l1 ++ x :: l2)[t] = x) ∨
    (∃ i, ∃ h : i < l2.length, t = l1.length + 1 + i ∧ (l1 ++ x :: l2)[t] = l2[i]) := by
  intro l1
  induction l1 with
  | nil =>
    intro x l2 t ht
    cases t with
    | zero => exact Or.inr (Or.inl ⟨rfl, by simp⟩)
    | succ i =>
      have hi : i < l2.length := by simpa using ht
      exact Or.inr (Or.inr ⟨i, hi, by simp only [List.length_nil]; omega, by simp⟩)
  | cons a l1 ih =>
    intro x l2 t ht
    cases t with
    | zero => exact Or.inl ⟨by simp, by simp⟩
    | succ t2 =>
      have ht2 : t2 < (l1 ++ x :: l2).length := by simpa using ht
      rcases ih x l2 t2 ht2 with ⟨h, heq⟩ | ⟨h, heq⟩ | ⟨i, hi, hti, heq⟩
      · refine Or.inl ⟨by simpa using Nat.succ_lt_succ h, ?_⟩
        simpa using heq
      · exact Or.inr (Or.inl ⟨by simp [h], by simpa using heq⟩)
      · refine Or.inr (Or.inr ⟨i, hi, by simp only [List.length_cons]; omega, ?_⟩)
        simpa using heq

/-- Reading the right part of an append-around-a-cons at its offset. -/
theorem getElem_append_cons_right {γ : Type} (l1 : List γ) (x : γ) (l2 : List γ) (i : Nat)
    (hi : i < l2.length) (ht : l1.length + 1 + i < (l1 ++ x :: l2).length) :
    (l1 ++ x :: l2)[l1.length + 1 + i] = l2[i] := by
  rcases getElem_append_cons_cases l1 x l2 (l1.length + 1 + i) ht with
    ⟨h, _⟩ | ⟨h, _⟩ | ⟨j, hj, htj, heq⟩
  · omega
  · omega
  · have hji : j = i := by omega
    subst hji
    exact heq

/-- C3: strict arrival-order service.  First, in any state the waiters a step
grants are an initial segment of the queue, so a waiter at position k is never
granted while a waiter at a smaller position remains queued.  Second, along
any trace in which waiter A enqueues strictly before waiter B (fresh distinct
ids, neither canceled afterwards nor re-enqueued), whenever B is granted at
step t, A was granted at some step t2 ≤ t — A is granted no later than B. -/
theorem semaphore_fifo_order
    (s0 : SemState) (u v w : List Event) (tokA tokB : Bool) (nA nB : Int) (A B : Nat)
    (hABne : A ≠ B)
    (hB0 : B ∉ idsOf s0.queue)
    (hBu : ∀ tok n, Event.acq tok B n ∉ u)
    (hBv : ∀ tok n, Event.acq tok B n ∉ v)
    (hAw : ∀ tok n, Event.acq tok A n ∉ w) (hBw : ∀ tok n, Event.acq tok B n ∉ w)
    (hcAv : Event.cancel A ∉ v) (hcAw : Event.cancel A ∉ w)
    (hcBw : Event.cancel B ∉ w)
    (hAenq : (acquire tokA A nA (exec s0 u)).1 = AcquireResult.enqueued)
    (hBenq : (acquire tokB B nB
        (exec s0 (u ++ Event.acq tokA A nA :: v))).1 = AcquireResult.enqueued) :
    (∀ (s : SemState) (e : Event), ∃ k, (step e s).2 = s.queue.take k) ∧
    (∀ t, ∀ ht : t < (grantsLog s0
          (u ++ Event.acq tokA A nA :: (v ++ Event.acq tokB B nB :: w))).length,
      B ∈ idsOf ((grantsLog s0
          (u ++ Event.acq tokA A nA :: (v ++ Event.acq tokB B nB :: w)))[t]) →
      ∃ t2, ∃ ht2 : t2 < (grantsLog s0
          (u ++ Event.acq tokA A nA :: (v ++ Event.acq tokB B nB :: w))).length,
        t2 ≤ t ∧ A ∈ idsOf ((grantsLog s0
          (u ++ Event.acq tokA A nA :: (v ++ Event.acq tokB B nB :: w)))[t2])) := by
  refine ⟨fun s e => step_grants_take e s, ?_⟩
  have hlogeq : grantsLog s0 (u ++ Event.acq tokA A nA :: (v ++ Event.acq tokB B nB :: w))
      = grantsLog s0 u
        ++ ([] :: (grantsLog (step (Event.acq tokA A nA) (exec s0 u)).1 v
          ++ ([] :: grantsLog
            (step (Event.acq tokB B nB)
              (exec (step (Event.acq tokA A nA) (exec s0 u)).1 v)).1 w))) := by
    rw [grantsLog_append u (Event.acq tokA A nA :: (v ++ Event.acq tokB B nB :: w)) s0]
    have h1 : grantsLog (exec s0 u) (Event.acq tokA A nA :: (v ++ Event.acq tokB B nB :: w))
        = [] :: grantsLog (step (Event.acq tokA A nA) (exec s0 u)).1
            (v ++ Event.acq tokB B nB :: w) := rfl
    rw [h1, grantsLog_append v (Event.acq tokB B nB :: w)
      (step (Event.acq tokA A nA) (exec s0 u)).1]
    rfl
  have hAqA : A ∈ idsOf (step (Event.acq tokA A nA) (exec s0 u)).1.queue := by
    have hq : (step (Event.acq tokA A nA) (exec s0 u)).1.queue
        = (exec s0 u).queue ++ [⟨A, nA⟩] :=
      acquire_enqueued_queue tokA A nA (exec s0 u) hAenq
    rw [hq, idsOf, List.map_append]
    simp [idsOf]
  obtain ⟨hBs1, hBlogU⟩ := fresh_stays_out u s0 B hB0 hBu
  have hBsA : B ∉ idsOf (step (Event.acq tokA A nA) (exec s0 u)).1.queue := by
    apply notin_queue_preserved (Event.acq tokA A nA) (exec s0 u) B hBs1
    intro tok n he
    have : A = B := by
      injection he with h1 h2 h3
    exact hABne this
  obtain ⟨hBs2, hBlogV⟩ := fresh_stays_out v
    (step (Event.acq tokA A nA) (exec s0 u)).1 B hBsA hBv
  have hstate : exec s0 (u ++ Event.acq tokA A nA :: v)
      = exec (step (Event.acq tokA A nA) (exec s0 u)).1 v := by
    rw [exec_append]
    rfl
  rw [hstate] at hBenq
  have hqB : (step (Event.acq tokB B nB)
        (exec (step (Event.acq tokA A nA) (exec s0 u)).1 v)).1.queue
      = (exec (step (Event.acq tokA A nA) (exec s0 u)).1 v).queue ++ [⟨B, nB⟩] :=
    acquire_enqueued_queue tokB B nB _ hBenq
  intro t ht hB
  simp only [hlogeq] at ht hB ⊢
  have hlen : (grantsLog s0 u
        ++ ([] :: (grantsLog (step (Event.acq tokA A nA) (exec s0 u)).1 v
          ++ ([] :: grantsLog
            (step (Event.acq tokB B nB)
              (exec (step (Event.acq tokA A nA) (exec s0 u)).1 v)).1 w)))).length
      = (grantsLog s0 u).length
        + (1 + ((grantsLog (step (Event.acq tokA A nA) (exec s0 u)).1 v).length
          + (1 + (grantsLog
            (step (Event.acq tokB B nB)
              (exec (step (Event.acq tokA A nA) (exec s0 u)).1 v)).1 w).length))) := by
    simp [List.length_append, List.length_cons]
    omega
  obtain ⟨tw, hwlt, htw, hteq⟩ : ∃ tw, ∃ hw : tw < (grantsLog
        (step (Event.acq tokB B nB)
          (exec (step (Event.acq tokA A nA) (exec s0 u)).1 v)).1 w).length,
      t = (grantsLog s0 u).length + 1
          + ((grantsLog (step (Event.acq tokA A nA) (exec s0 u)).1 v).length + 1 + tw) ∧
      (grantsLog s0 u
        ++ ([] :: (grantsLog (step (Event.acq tokA A nA) (exec s0 u)).1 v
          ++ ([] :: grantsLog
            (step (Event.acq tokB B nB)
              (exec (step (Event.acq tokA A nA) (exec s0 u)).1 v)).1 w))))[t]
        = (grantsLog
            (step (Event.acq tokB B nB)
              (exec (step (Event.acq tokA A nA) (exec s0 u)).1 v)).1 w)[tw] := by
    rcases getElem_append_cons_cases (grantsLog s0 u) []
        (grantsLog (step (Event.acq tokA A nA) (exec s0 u)).1 v
          ++ ([] :: grantsLog
            (step (Event.acq tokB B nB)
              (exec (step (Event.acq tokA A nA) (exec s0 u)).1 v)).1 w)) t ht with
      ⟨h, heq⟩ | ⟨h, heq⟩ | ⟨i, hi, hti, heq⟩
    · exfalso
      rw [heq] at hB
      exact hBlogU t h hB
    · exfalso
      rw [heq] at hB
      simp [idsOf] at hB
    · rw [heq] at hB
      rcases getElem_append_cons_cases
          (grantsLog (step (Event.acq tokA A nA) (exec s0 u)).1 v) []
          (grantsLog (step (Event.acq tokB B nB)
            (exec (step (Event.acq tokA A nA) (exec s0 u)).1 v)).1 w) i hi with
        ⟨h2, heq2⟩ | ⟨h2, heq2⟩ | ⟨j, hj, hij, heq2⟩
      · exfalso
        rw [heq2] at hB
        exact hBlogV i h2 hB
      · exfalso
        rw [heq2] at hB
        simp [idsOf] at hB
      · exact ⟨j, hj, by omega, by rw [heq, heq2]⟩
  rcases in_queue_or_granted v (step (Event.acq tokA A nA) (exec s0 u)).1 A hAqA hcAv with
    hA2 | ⟨t0, ht0, hAgv⟩
  · have hABsub : [A, B].Sublist (idsOf (step (Event.acq tokB B nB)
        (exec (step (Event.acq tokA A nA) (exec s0 u)).1 v)).1.queue) := by
      have hids : idsOf (step (Event.acq tokB B nB)
            (exec (step (Event.acq tokA A nA) (exec s0 u)).1 v)).1.queue
          = idsOf (exec (step (Event.acq tokA A nA) (exec s0 u)).1 v).queue ++ [B] := by
        rw [hqB, idsOf, List.map_append]
        rfl
      rw [hids]
      exact (List.singleton_sublist.mpr hA2).append (List.Sublist.refl [B])
    have hcount : (idsOf (step (Event.acq tokB B nB)
          (exec (step (Event.acq tokA A nA) (exec s0 u)).1 v)).1.queue).count B ≤ 1 := by
      have hids : idsOf (step (Event.acq tokB B nB)
            (exec (step (Event.acq tokA A nA) (exec s0 u)).1 v)).1.queue
          = idsOf (exec (step (Event.acq tokA A nA) (exec s0 u)).1 v).queue ++ [B] := by
        rw [hqB, idsOf, List.map_append]
        rfl
      rw [hids, List.count_append]
      have h0 : (idsOf (exec (step (Event.acq tokA A nA) (exec s0 u)).1 v).queue).count B
          = 0 := List.count_eq_zero.mpr hBs2
      simp [h0]
    obtain ⟨tw2, hw2, hle2, hmem2⟩ := fairness_main w
      (step (Event.acq tokB B nB)
        (exec (step (Event.acq tokA A nA) (exec s0 u)).1 v)).1 A B
      hABsub hcount hcAw hcBw hAw hBw tw hwlt (by rw [← hteq]; exact hB)
    refine ⟨(grantsLog s0 u).length + 1
        + ((grantsLog (step (Event.acq tokA A nA) (exec s0 u)).1 v).length + 1 + tw2),
      by rw [hlen] at ht ⊢; omega, by omega, ?_⟩
    have henc : (grantsLog s0 u
        ++ ([] :: (grantsLog (step (Event.acq tokA A nA) (exec s0 u)).1 v
          ++ ([] :: grantsLog
            (step (Event.acq tokB B nB)
              (exec (step (Event.acq tokA A nA) (exec s0 u)).1 v)).1 w))))[
        (grantsLog s0 u).length + 1
          + ((grantsLog (step (Event.acq tokA A nA) (exec s0 u)).1 v).length + 1 + tw2)]
        = (grantsLog
            (step (Event.acq tokB B nB)
              (exec (step (Event.acq tokA A nA) (exec s0 u)).1 v)).1 w)[tw2] := by
      rw [getElem_append_cons_right (grantsLog s0 u) [] _ _
        (by simp only [List.length_append, List.length_cons]; omega)
        (by rw [hlen]; omega)]
      exact getElem_append_cons_right _ [] _ tw2 hw2
        (by simp only [List.length_append, List.length_cons]; omega)
    rw [henc]
    exact hmem2
  · refine ⟨(grantsLog s0 u).length + 1 + t0, by rw [hlen] at ht ⊢; omega, by omega, ?_⟩
    have henc : (grantsLog s0 u
        ++ ([] :: (grantsLog (step (Event.acq tokA A nA) (exec s0 u)).1 v
          ++ ([] :: grantsLog
            (step (Event.acq tokB B nB)
              (exec (step (Event.acq tokA A nA) (exec s0 u)).1 v)).1 w))))[
        (grantsLog s0 u).length + 1 + t0]
        = (grantsLog (step (Event.acq tokA A nA) (exec s0 u)).1 v)[t0] := by
      rw [getElem_append_cons_right (grantsLog s0 u) [] _ t0
        (by simp only [List.length_append, List.length_cons]; omega)
        (by rw [hlen]; omega)]
      exact List.getElem_append_left ht0
    rw [henc]
    exact hAgv

/-- Witness for C3: capacity 1, TryAcquire(1) fills the semaphore, waiter 1
then waiter 2 enqueue (weight 1 each), two Releases grant them in order. -/
theorem semaphore_fifo_order_witness :
    (1 : Nat) ≠ 2 ∧
    2 ∉ idsOf (newSemaphore 1).queue ∧
    (∀ tok n, Event.acq tok 2 n ∉ [Event.tryAcq 1]) ∧
    (∀ tok n, Event.acq tok 2 n ∉ ([] : List Event)) ∧
    (∀ tok n, Event.acq tok 1 n ∉ [Event.rel 1, Event.rel 1]) ∧
    (∀ tok n, Event.acq tok 2 n ∉ [Event.rel 1, Event.rel 1]) ∧
    Event.cancel 1 ∉ ([] : List Event) ∧
    Event.cancel 1 ∉ [Event.rel 1, Event.rel 1] ∧
    Event.cancel 2 ∉ [Event.rel 1, Event.rel 1] ∧
    (acquire false 1 1 (exec (newSemaphore 1) [Event.tryAcq 1])).1
      = AcquireResult.enqueued ∧
    (acquire false 2 1
        (exec (newSemaphore 1) ([Event.tryAcq 1] ++ Event.acq false 1 1 :: []))).1
      = AcquireResult.enqueued ∧
    ((∀ (s : SemState) (e : Event), ∃ k, (step e s).2 = s.queue.take k) ∧
      (∀ t, ∀ ht : t < (grantsLog (newSemaphore 1)
            ([Event.tryAcq 1] ++ Event.acq false 1 1 ::
              ([] ++ Event.acq false 2 1 :: [Event.rel 1, Event.rel 1]))).length,
        2 ∈ idsOf ((grantsLog (newSemaphore 1)
            ([Event.tryAcq 1] ++ Event.acq false 1 1 ::
              ([] ++ Event.acq false 2 1 :: [Event.rel 1, Event.rel 1])))[t]) →
        ∃ t2, ∃ ht2 : t2 < (grantsLog (newSemaphore 1)
            ([Event.tryAcq 1] ++ Event.acq false 1 1 ::
              ([] ++ Event.acq false 2 1 :: [Event.rel 1, Event.rel 1]))).length,
          t2 ≤ t ∧ 1 ∈ idsOf ((grantsLog (newSemaphore 1)
            ([Event.tryAcq 1] ++ Event.acq false 1 1 ::
              ([] ++ Event.acq false 2 1 :: [Event.rel 1, Event.rel 1])))[t2]))) :=
  ⟨by decide, by decide, by intro tok n; simp, by intro tok n; simp,
    by intro tok n; simp, by intro tok n; simp, by decide, by decide, by decide,
    by decide, by decide,
    semaphore_fifo_order (newSemaphore 1) [Event.tryAcq 1] [] [Event.rel 1, Event.rel 1]
      false false 1 1 1 2 (by decide) (by decide) (by intro tok n; simp)
      (by intro tok n; simp) (by intro tok n; simp) (by intro tok n; simp)
      (by decide) (by decide) (by decide) (by decide) (by decide)⟩
